import Mathlib

/-!
# bpe: batched puppet executions

A verification development for `bpe.go`: the HTTP gateway argument parser
(`parseClientArgs`), the generation runner (`PuppetRunner`), the deadline
task (`timer`) and the run scheduler (`manageQueue`).

Sequential code is embedded as Lean functions.  The goroutines and channels
are embedded as an executable labelled transition function `step`: a state
holds the contents of every channel and the control point of every goroutine,
and one step is one channel operation of one goroutine together with the
channel-free statements that follow it up to the next channel operation.
A send on an unbuffered channel is a rendezvous of the sender and the
receiver and is one step of both.  Time is abstracted: a timer may elapse
at any moment.
-/

namespace Bpe

/-! ## Durations and requests -/

/-- The constant `time.Second`, in nanoseconds. -/
def Second : Int := 1000000000

/-- Two's complement wrap-around of a mathematical integer into int64,
the arithmetic of `time.Duration`. -/
def wrap64 (x : Int) : Int := (x + 2 ^ 63) % 2 ^ 64 - 2 ^ 63

/-- Multiplication of two `time.Duration` values (int64 multiplication). -/
def durMul (a b : Int) : Int := wrap64 (a * b)

/-- The struct `RunRequest` (lines 12-15).  `Delay` is a `time.Duration` in
nanoseconds; `Notify` is `none` for a nil channel and `some c` for the
channel with identity `c`. -/
structure RunRequest where
  Delay : Int
  Notify : Option Nat
  deriving DecidableEq, Repr

/-- The struct `ClientArgs` (lines 17-19). -/
structure ClientArgs where
  Delay : Int
  deriving DecidableEq, Repr

/-- The value sent at line 142: `RunRequest{time.Duration(-1) * time.Second, nil}`. -/
def closeMarker : RunRequest := ⟨durMul (-1) Second, none⟩

/-! ## The gateway: `parseClientArgs` -/

/-- Value of an ASCII decimal digit. -/
def digitVal (c : Char) : Option Nat :=
  if 48 ≤ c.toNat ∧ c.toNat ≤ 57 then some (c.toNat - 48) else none

/-- Reads a run of decimal digits, most significant first. -/
def parseDigits : List Char → Nat → Option Nat
  | [], acc => some acc
  | c :: cs, acc =>
    match digitVal c with
    | none => none
    | some d => parseDigits cs (acc * 10 + d)

/-- Reads a non-empty run of decimal digits. -/
def parseMagnitude (cs : List Char) : Option Nat :=
  match cs with
  | [] => none
  | _ :: _ => parseDigits cs 0

/-- Model of the Go library function `strconv.Atoi` on a platform whose `int`
has 64 bits: an optional sign, then at least one decimal digit, and the value
must lie in the int64 range; `none` stands for a non-nil error. -/
def Atoi (s : String) : Option Int :=
  match s.toList with
  | [] => none
  | c :: cs =>
    if c = '-' then
      match parseMagnitude cs with
      | some n => if n ≤ 2 ^ 63 then some (-(n : Int)) else none
      | none => none
    else if c = '+' then
      match parseMagnitude cs with
      | some n => if n < 2 ^ 63 then some (n : Int) else none
      | none => none
    else
      match parseMagnitude (c :: cs) with
      | some n => if n < 2 ^ 63 then some (n : Int) else none
      | none => none

/-- Model of `url.URL` restricted to what the program reads: the parsed query
(`url.Values`, a map from keys to lists of values) as an association list. -/
structure URL where
  query : List (String × List String)
  deriving DecidableEq, Repr

/-- Model of `url.Values.Get`: the first value of the key, or the empty
string when the key is absent or has no value. -/
def URL.Get (u : URL) (key : String) : String :=
  match u.query.find? (fun kv => kv.1 == key) with
  | some (_, v :: _) => v
  | _ => ""

/-- Function `parseClientArgs` (lines 62-68). -/
def parseClientArgs (url : URL) : Except String ClientArgs :=
  match Atoi (url.Get "delay") with
  | none => .error "Could not find or parse args"
  | some delay_int => .ok ⟨durMul delay_int Second⟩

/-! ## The generation runner: `PuppetRunner` -/

/-- Control points of a `PuppetRunner` goroutine.
`collecting`: at the receive of `for req := range requests` (line 76);
`running`: "starting puppet run" is logged and the action of lines 87-89 is in
progress (inside `time.Sleep`);
`notifying k`: "finished puppet run" is logged, `k` waiters have been signaled,
the next operation is the send on `waiters[k]` (line 93), or, when `k` is the
number of waiters, the deferred send on `readyToRun` (line 72);
`done`: the goroutine has returned. -/
inductive RPhase where
  | collecting
  | running
  | notifying (k : Nat)
  | done
  deriving DecidableEq, Repr

/-- A `PuppetRunner` goroutine: its two arguments, its local slice `waiters`,
its control point, and the history of the values it has received on
`requests` (a history variable, read by no step). -/
structure Runner where
  requests : Nat
  runNum : Nat
  waiters : List Nat
  phase : RPhase
  received : List RunRequest
  deriving DecidableEq, Repr

/-- Start of `PuppetRunner(requests, runNum)`: lines 70-75, up to the first
receive. -/
def PuppetRunner (requests runNum : Nat) : Runner :=
  ⟨requests, runNum, [], .collecting, []⟩

/-- One iteration of the loop of lines 76-85 on the received value `req`
(and, on the sentinel, the `break` and the log of line 87).  Not enabled when
the runner is not at the receive. -/
def Runner.recv (r : Runner) (req : RunRequest) : Option Runner :=
  match r.phase with
  | .collecting =>
    if req.Delay < durMul 0 Second then
      some { r with phase := .running, received := r.received ++ [req] }
    else
      match req.Notify with
      | some c => some { r with waiters := r.waiters ++ [c], received := r.received ++ [req] }
      | none => some { r with received := r.received ++ [req] }
  | _ => none

/-- Feeds the values of a queue to a runner in order, as long as it is at the
receive; returns the runner and the values it has not consumed. -/
def Runner.consume (r : Runner) : List RunRequest → Runner × List RunRequest
  | [] => (r, [])
  | req :: rest =>
    match r.recv req with
    | some r1 => r1.consume rest
    | none => (r, req :: rest)

/-- Effects of a runner after its receive loop. -/
inductive Effect where
  | action
  | signal (c : Nat)
  | token
  deriving DecidableEq, Repr

/-- The next operation of a runner that has left its receive loop, lines
87-95 and the deferred call of line 72: the end of the action, then one send
per element of `waiters`, then the send on `readyToRun`. -/
def Runner.next (r : Runner) : Option (Effect × Runner) :=
  match r.phase with
  | .collecting => none
  | .running => some (.action, { r with phase := .notifying 0 })
  | .notifying k =>
    match r.waiters.get? k with
    | some c => some (.signal c, { r with phase := .notifying (k + 1) })
    | none => some (.token, { r with phase := .done })
  | .done => none

/-- The effects of a runner in order, every send finding its channel ready;
`fuel` bounds the number of operations. -/
def Runner.trace : Nat → Runner → List Effect
  | 0, _ => []
  | fuel + 1, r =>
    match r.next with
    | none => []
    | some (e, r1) => e :: Runner.trace fuel r1

/-! ## The deadline task and the scheduler -/

/-- A `timer` goroutine (lines 97-101): its arguments `delay` and `runNum`,
and whether `time.After(delay)` has elapsed, after which it is at the send
`notify <- runNum` of line 100. -/
structure Timer where
  delay : Int
  runNum : Nat
  fired : Bool
  deriving DecidableEq, Repr

/-- Control points of `manageQueue`.
`init`: before line 104;
`collect`: at the `select` of line 115;
`collectSend r`: at the send `queue <- request` of line 119;
`closing`: at the `select` of line 132;
`closingSend r`: at the send `queue <- request` of line 137;
`handoff`: the token is received (line 139), at the send of line 142. -/
inductive SPhase where
  | init
  | collect
  | collectSend (r : RunRequest)
  | closing
  | closingSend (r : RunRequest)
  | handoff
  deriving DecidableEq, Repr

/-- What `manageQueue` does, in program order (a history of its operations). -/
inductive SEvent where
  | seedToken
  | makeQueue (q : Nat)
  | goRunner (q n : Nat)
  | recvRequest (r : RunRequest)
  | sendQueue (q : Nat) (r : RunRequest)
  | goTimer (d : Int) (n : Nat)
  | report (fired : Nat)
  | enterClosing (n : Nat)
  | recvToken
  | setRunNum (n : Nat)
  deriving DecidableEq, Repr

/-- A state of the program.
`incoming`: the contents of the channel of line 23 (capacity 100), oldest first;
`readyToRun`: the number of values in the channel of line 26 (capacity 1);
`notify`: for each channel made at line 55 (capacity 1), in order of creation,
the number of values it holds; `sent`: for each of them the number of sends
completed so far (a history variable);
`pc`, `queue`, `runNum`: control point and locals of `manageQueue`, `queue`
being the identity of the channel; `queuesMade`: the number of channels made
at lines 108 and 143, the identity of the next one;
`runners`: the `PuppetRunner` goroutines in order of their `go` statement;
`timers`: the live `timer` goroutines;
`log`: the history of the operations of `manageQueue`. -/
structure State where
  incoming : List RunRequest
  readyToRun : Nat
  notify : List Nat
  sent : List Nat
  pc : SPhase
  queue : Nat
  runNum : Nat
  queuesMade : Nat
  runners : List Runner
  timers : List Timer
  log : List SEvent
  deriving DecidableEq, Repr

/-- The state when `main` starts `manageQueue` (line 31). -/
def init : State :=
  ⟨[], 0, [], [], .init, 0, 0, 0, [], [], []⟩

/-- The steps of the program.
`async u`, `sync u`: `AsyncHandler` and `SyncHandler` called with URL `u`, up
to and including the send on `incoming`;
`handlerRecv c`: the receive of line 58 on the channel `c`;
`seed`: lines 104-113;
`recvIncoming`: the receive from `incoming` of line 116 or 133;
`deliver i`: the send on `queue` at which `manageQueue` stands meets the
receive of runner `i`;
`timerFire j`: `time.After` of timer `j` elapses;
`report j`: the send of timer `j` meets the receive of line 123;
`takeToken`: the receive of line 139;
`runner i`: the next operation of runner `i` after its receive loop. -/
inductive Label where
  | async (u : URL)
  | sync (u : URL)
  | handlerRecv (c : Nat)
  | seed
  | recvIncoming
  | deliver (i : Nat)
  | timerFire (j : Nat)
  | report (j : Nat)
  | takeToken
  | runner (i : Nat)
  deriving DecidableEq, Repr

/-- Function `AsyncHandler` (lines 38-46). -/
def AsyncHandler (s : State) (u : URL) : Option State :=
  match parseClientArgs u with
  | .error _ => some s
  | .ok args =>
    if s.incoming.length < 100 then
      some { s with incoming := s.incoming ++ [⟨args.Delay, none⟩] }
    else none

/-- Function `SyncHandler` (lines 48-56), up to the send on `incoming`. -/
def SyncHandler (s : State) (u : URL) : Option State :=
  match parseClientArgs u with
  | .error _ => some s
  | .ok args =>
    if s.incoming.length < 100 then
      some { s with
        notify := s.notify ++ [0]
        sent := s.sent ++ [0]
        incoming := s.incoming ++ [⟨args.Delay, some s.notify.length⟩] }
    else none

/-- The receive `<-notify` of line 58. -/
def handlerRecv (s : State) (c : Nat) : Option State :=
  match s.notify.get? c with
  | some (n + 1) => some { s with notify := s.notify.set c n }
  | _ => none

/-- Lines 104-113 of `manageQueue`. -/
def seedStep (s : State) : Option State :=
  match s.pc with
  | .init =>
    if s.readyToRun < 1 then
      some { s with
        readyToRun := s.readyToRun + 1
        queue := s.queuesMade
        queuesMade := s.queuesMade + 1
        runNum := 0
        runners := s.runners ++ [PuppetRunner s.queuesMade 0]
        pc := .collect
        log := s.log ++ [.seedToken, .makeQueue s.queuesMade, .goRunner s.queuesMade 0] }
    else none
  | _ => none

/-- The cases `request := <-incoming` of lines 116-121 and 133-138, up to the
send on `queue` when there is one. -/
def recvIncoming (s : State) : Option State :=
  match s.incoming with
  | [] => none
  | request :: rest =>
    match s.pc with
    | .collect =>
      if request.Notify ≠ none then
        some { s with incoming := rest, pc := .collectSend request,
                      log := s.log ++ [.recvRequest request] }
      else
        some { s with
          incoming := rest
          timers := s.timers ++ [⟨request.Delay, s.runNum, false⟩]
          log := s.log ++ [.recvRequest request, .goTimer request.Delay s.runNum] }
    | .closing =>
      if request.Notify ≠ none then
        some { s with incoming := rest, pc := .closingSend request,
                      log := s.log ++ [.recvRequest request] }
      else
        some { s with incoming := rest, log := s.log ++ [.recvRequest request] }
    | _ => none

/-- The sends on `queue` of lines 119, 137 and 142, received by runner `i`,
with the statements that follow: line 121 after line 119, lines 143-145 and
the exit of the inner loop after line 142. -/
def deliver (s : State) (i : Nat) : Option State :=
  match s.runners.get? i with
  | none => none
  | some rn =>
    if rn.requests = s.queue then
      match s.pc with
      | .collectSend request =>
        match rn.recv request with
        | none => none
        | some rn1 =>
          some { s with
            runners := s.runners.set i rn1
            timers := s.timers ++ [⟨request.Delay, s.runNum, false⟩]
            pc := .collect
            log := s.log ++ [.sendQueue s.queue request, .goTimer request.Delay s.runNum] }
      | .closingSend request =>
        match rn.recv request with
        | none => none
        | some rn1 =>
          some { s with
            runners := s.runners.set i rn1
            pc := .closing
            log := s.log ++ [.sendQueue s.queue request] }
      | .handoff =>
        match rn.recv closeMarker with
        | none => none
        | some rn1 =>
          some { s with
            runners := s.runners.set i rn1 ++
              [PuppetRunner s.queuesMade ((s.runNum + 1) % 2 ^ 64)]
            queue := s.queuesMade
            queuesMade := s.queuesMade + 1
            runNum := (s.runNum + 1) % 2 ^ 64
            pc := .collect
            log := s.log ++ [.sendQueue s.queue closeMarker, .makeQueue s.queuesMade,
              .setRunNum ((s.runNum + 1) % 2 ^ 64),
              .goRunner s.queuesMade ((s.runNum + 1) % 2 ^ 64)] }
      | _ => none
    else none

/-- The receive `<-time.After(delay)` of line 99 in timer `j`. -/
def timerFire (s : State) (j : Nat) : Option State :=
  match s.timers.get? j with
  | some t =>
    if t.fired then none
    else some { s with timers := s.timers.set j { t with fired := true } }
  | none => none

/-- The case `firedRunNum := <-start` of lines 123-131, fed by timer `j`
(line 100), which then returns. -/
def report (s : State) (j : Nat) : Option State :=
  match s.pc with
  | .collect =>
    match s.timers.get? j with
    | some t =>
      if t.fired then
        if t.runNum ≠ s.runNum then
          some { s with timers := s.timers.eraseIdx j, log := s.log ++ [.report t.runNum] }
        else
          some { s with
            timers := s.timers.eraseIdx j
            pc := .closing
            log := s.log ++ [.report t.runNum, .enterClosing s.runNum] }
      else none
    | none => none
  | _ => none

/-- The case `<-readyToRun` of line 139. -/
def takeToken (s : State) : Option State :=
  match s.pc with
  | .closing =>
    if 0 < s.readyToRun then
      some { s with readyToRun := s.readyToRun - 1, pc := .handoff,
                    log := s.log ++ [.recvToken] }
    else none
  | _ => none

/-- The next operation of runner `i` after its receive loop: the end of the
action, a send on a waiter (enabled when that channel, of capacity 1, is
empty), or the deferred send on `readyToRun` (enabled when it is empty). -/
def runnerStep (s : State) (i : Nat) : Option State :=
  match s.runners.get? i with
  | none => none
  | some rn =>
    match rn.next with
    | none => none
    | some (.action, rn1) => some { s with runners := s.runners.set i rn1 }
    | some (.signal c, rn1) =>
      match s.notify.get? c, s.sent.get? c with
      | some 0, some k =>
        some { s with
          runners := s.runners.set i rn1
          notify := s.notify.set c 1
          sent := s.sent.set c (k + 1) }
      | _, _ => none
    | some (.token, rn1) =>
      if s.readyToRun < 1 then
        some { s with runners := s.runners.set i rn1, readyToRun := s.readyToRun + 1 }
      else none

/-- One step of the program. -/
def step (s : State) : Label → Option State
  | .async u => AsyncHandler s u
  | .sync u => SyncHandler s u
  | .handlerRecv c => handlerRecv s c
  | .seed => seedStep s
  | .recvIncoming => recvIncoming s
  | .deliver i => deliver s i
  | .timerFire j => timerFire s j
  | .report j => report s j
  | .takeToken => takeToken s
  | .runner i => runnerStep s i

/-- Runs a sequence of steps; `none` when one of them is not enabled. -/
def run (s : State) : List Label → Option State
  | [] => some s
  | l :: ls =>
    match step s l with
    | none => none
    | some s1 => run s1 ls

/-- The request a step submits has a delay of at least zero. -/
def Label.delayOK : Label → Bool
  | .async u | .sync u =>
    match parseClientArgs u with
    | .ok args => decide (0 ≤ args.Delay)
    | .error _ => true
  | _ => true

/-- The URL whose query is `delay=v`. -/
def delayURL (v : String) : URL := ⟨[("delay", [v])]⟩

/-! ## Observations on states -/

/-- Runner `r` is between "starting puppet run" and "finished puppet run". -/
def Runner.executing (r : Runner) : Bool := decide (r.phase = .running)

/-- Runner `r` has been sent the close marker and has not yet executed its
deferred return. -/
def Runner.closedNotReturned (r : Runner) : Bool :=
  decide (closeMarker ∈ r.received) && decide (r.phase ≠ .done)

/-- The number of runners between "starting puppet run" and "finished puppet
run". -/
def State.executing (s : State) : Nat := s.runners.countP Runner.executing

/-- The number of runners that have been sent the close marker and have not
yet executed their deferred return. -/
def State.closedNotReturned (s : State) : Nat := s.runners.countP Runner.closedNotReturned

/-- One when `manageQueue` has received the token and has not yet completed
the send of the close marker, zero otherwise. -/
def SPhase.held : SPhase → Nat
  | .handoff => 1
  | _ => 0

/-- The request `manageQueue` is sending on `queue`, if any. -/
def SPhase.pending : SPhase → Option RunRequest
  | .collectSend r => some r
  | .closingSend r => some r
  | _ => none

/-- The scheduler is in the closing loop (lines 131-147). -/
def SPhase.inClosing : SPhase → Bool
  | .closing => true
  | .closingSend _ => true
  | .handoff => true
  | _ => false

/-- The run numbers whose timer report made `manageQueue` enter the closing
loop, in order. -/
def State.closings (s : State) : List Nat :=
  s.log.filterMap fun e => match e with
    | .enterClosing n => some n
    | _ => none

/-! ## Invariants -/

/-- A runner is at its receive exactly when it has not received the close
marker. -/
def Runner.ok (r : Runner) : Prop := r.phase = .collecting ↔ closeMarker ∉ r.received

/-- Invariant of the executions in which every submitted delay is at least
zero: every request in flight has a delay of at least zero, a runner leaves
its receive loop only on the close marker, and the token is in exactly one
place: in `readyToRun`, in the hands of the scheduler, or with a runner that
has been sent the close marker and has not returned. -/
structure TokenInv (s : State) : Prop where
  incoming_nonneg : ∀ r ∈ s.incoming, 0 ≤ r.Delay
  pending_nonneg : ∀ r, s.pc.pending = some r → 0 ≤ r.Delay
  runner_ok : ∀ r ∈ s.runners, r.ok
  balance : s.pc ≠ .init → s.readyToRun + s.pc.held + s.closedNotReturned = 1
  fresh : s.pc = .init → s.readyToRun = 0 ∧ s.runners = []

/-- Invariant of all executions: the runners are numbered in order of their
start, `queue` is the channel of the last one, only the last one has not been
sent the close marker, nothing follows the close marker on a channel, and the
closing loop has been entered once for each earlier run number. -/
structure SchedInv (s : State) : Prop where
  fresh : s.pc = .init → s.runners = [] ∧ s.queue = 0 ∧ s.log = []
  made : s.queuesMade = s.runners.length
  queue : s.pc ≠ .init → s.queue + 1 = s.runners.length
  runNum : s.pc ≠ .init → s.runNum = s.queue % 2 ^ 64
  ids : ∀ i r, s.runners.get? i = some r → r.requests = i ∧ r.runNum = i % 2 ^ 64
  pending : ∀ r, s.pc.pending = some r → r.Notify ≠ none
  marker : ∀ i r, s.runners.get? i = some r →
    closeMarker ∉ r.received.dropLast ∧ (closeMarker ∈ r.received ↔ i < s.queue)
  closings : s.closings =
    (List.range (s.queue + if s.pc.inClosing then 1 else 0)).map (· % 2 ^ 64)

/-- A runner that has left its receive loop is preceded only by runners that
have returned. -/
def Ordered (l : List Runner) : Prop :=
  ∀ i j ri rj, i < j → l.get? i = some ri → l.get? j = some rj →
    rj.phase ≠ .collecting → ri.phase = .done

/-- The scheduler stands at the send of the close marker on queue 0, whose
only runner has returned, no timer is live, and nothing has been sent on the
channel 0 of line 55. -/
def Wedged (s : State) : Prop :=
  s.pc = .handoff ∧ s.queue = 0 ∧ s.timers = [] ∧ s.sent.get? 0 = some 0 ∧
    ∃ r, s.runners = [r] ∧ r.phase = .done

/-- Runner `r` has completed the send on `waiters[k]`. -/
def Runner.signaled (r : Runner) (k : Nat) : Bool :=
  match r.phase with
  | .notifying j => decide (k < j)
  | .done => true
  | _ => false

/-- The `Notify` channels the runners have collected, runner after runner. -/
def allWaiters : List Runner → List Nat
  | [] => []
  | r :: rs => r.waiters ++ allWaiters rs

/-- The `Notify` channel of the request `manageQueue` is sending, if any. -/
def SPhase.pendingChans (pc : SPhase) : List Nat :=
  match pc.pending with
  | some r => r.Notify.toList
  | none => []

/-- The `Notify` channels on their way to a runner: the one of the request
`manageQueue` is sending, then those of the requests in `incoming`. -/
def State.waitingChans (s : State) : List Nat :=
  s.pc.pendingChans ++ s.incoming.filterMap (·.Notify)

/-- Invariant of the executions in which every submitted delay is at least
zero: the channels made at line 55 are, in order of creation, those collected
by the runners followed by those on their way; on each of them one value has
been sent when its runner has passed it in the loop of lines 92-94, and none
otherwise. -/
structure NotifyInv (s : State) : Prop where
  len : s.sent.length = s.notify.length
  chans : allWaiters s.runners ++ s.waitingChans = List.range s.notify.length
  held : ∀ i r k c, s.runners.get? i = some r → r.waiters.get? k = some c →
    s.sent.get? c = some (if r.signaled k then 1 else 0)
  waiting : ∀ c, c ∈ s.waitingChans → s.sent.get? c = some 0

/-! ## Example executions -/

/-- A synchronous request with delay 2 is queued for run 0, its timer fires,
the scheduler takes the token and closes run 0, which starts its action. -/
def runToAction : List Label :=
  [.seed, .sync (delayURL "2"), .recvIncoming, .deliver 0, .timerFire 0, .report 0,
   .takeToken, .deliver 0]

/-- The state `runToAction` ends in. -/
def atAction : State :=
  { incoming := []
    readyToRun := 0
    notify := [0]
    sent := [0]
    pc := .collect
    queue := 1
    runNum := 1
    queuesMade := 2
    runners :=
      [⟨0, 0, [0], .running, [⟨2000000000, some 0⟩, closeMarker]⟩, ⟨1, 1, [], .collecting, []⟩]
    timers := []
    log :=
      [.seedToken, .makeQueue 0, .goRunner 0 0, .recvRequest ⟨2000000000, some 0⟩,
       .sendQueue 0 ⟨2000000000, some 0⟩, .goTimer 2000000000 0, .report 0, .enterClosing 0,
       .recvToken, .sendQueue 0 closeMarker, .makeQueue 1, .setRunNum 1, .goRunner 1 1] }

/-- An asynchronous request with delay 0 arrives, its timer fires, and the
scheduler receives the token at line 139: it now stands at the send of
line 142. -/
def runToHandoff : List Label :=
  [.seed, .async (delayURL "0"), .recvIncoming, .timerFire 0, .report 0, .takeToken]

/-- The state `runToHandoff` ends in. -/
def atHandoff : State :=
  { incoming := []
    readyToRun := 0
    notify := []
    sent := []
    pc := .handoff
    queue := 0
    runNum := 0
    queuesMade := 1
    runners := [⟨0, 0, [], .collecting, []⟩]
    timers := []
    log :=
      [.seedToken, .makeQueue 0, .goRunner 0 0, .recvRequest ⟨0, none⟩, .goTimer 0 0,
       .report 0, .enterClosing 0, .recvToken] }

/-- Two asynchronous requests, with delays 0 and 5, are taken for run 0; both
timers fire; the report of the first closes run 0 and run 1 is opened, while
the second timer still stands at its send. -/
def runToStale : List Label :=
  [.seed, .async (delayURL "0"), .async (delayURL "5"), .recvIncoming, .recvIncoming,
   .timerFire 0, .timerFire 1, .report 0, .takeToken, .deliver 0]

/-- The state `runToStale` ends in. -/
def atStale : State :=
  { incoming := []
    readyToRun := 0
    notify := []
    sent := []
    pc := .collect
    queue := 1
    runNum := 1
    queuesMade := 2
    runners := [⟨0, 0, [], .running, [closeMarker]⟩, ⟨1, 1, [], .collecting, []⟩]
    timers := [⟨5000000000, 0, true⟩]
    log :=
      [.seedToken, .makeQueue 0, .goRunner 0 0, .recvRequest ⟨0, none⟩, .goTimer 0 0,
       .recvRequest ⟨5000000000, none⟩, .goTimer 5000000000 0, .report 0, .enterClosing 0,
       .recvToken, .sendQueue 0 closeMarker, .makeQueue 1, .setRunNum 1, .goRunner 1 1] }

/-- A synchronous request with `delay=-1` is submitted and forwarded to
runner 0, which takes it for the sentinel. -/
def runToSentinel : List Label :=
  [.seed, .sync (delayURL "-1"), .recvIncoming, .deliver 0]

/-- The execution goes on: the action of runner 0 ends, the timer of the
request fires and reports, the scheduler takes the seed token, and runner 0
returns. -/
def runToWedge : List Label :=
  runToSentinel ++ [.runner 0, .timerFire 0, .report 0, .takeToken, .runner 0]

/-- The state `runToWedge` ends in. -/
def atWedge : State :=
  { incoming := []
    readyToRun := 1
    notify := [0]
    sent := [0]
    pc := .handoff
    queue := 0
    runNum := 0
    queuesMade := 1
    runners := [⟨0, 0, [], .done, [⟨-1000000000, some 0⟩]⟩]
    timers := []
    log :=
      [.seedToken, .makeQueue 0, .goRunner 0 0, .recvRequest ⟨-1000000000, some 0⟩,
       .sendQueue 0 ⟨-1000000000, some 0⟩, .goTimer (-1000000000) 0, .report 0,
       .enterClosing 0, .recvToken] }

/-- The execution `runToAction` goes on: the action of runner 0 ends and it
signals its waiter. -/
def runToNotified : List Label :=
  runToAction ++ [.runner 0, .runner 0]

/-- The state `runToNotified` ends in. -/
def atNotified : State :=
  { atAction with
    notify := [1]
    sent := [1]
    runners :=
      [⟨0, 0, [0], .notifying 1, [⟨2000000000, some 0⟩, closeMarker]⟩,
       ⟨1, 1, [], .collecting, []⟩] }

/-! ## Basic facts -/

theorem durMul_zero_Second : durMul 0 Second = 0 := by decide

theorem closeMarker_Delay : closeMarker.Delay = -1000000000 := by decide

theorem ne_closeMarker_of_nonneg {r : RunRequest} (h : 0 ≤ r.Delay) : r ≠ closeMarker := by
  intro e
  rw [e, closeMarker_Delay] at h
  omega

theorem ne_closeMarker_of_notify {r : RunRequest} (h : r.Notify ≠ none) : r ≠ closeMarker := by
  intro e
  rw [e] at h
  exact h rfl

theorem countP_set_add {α : Type} (p : α → Bool) (l : List α) (i : Nat) (a b : α)
    (h : l.get? i = some a) :
    (l.set i b).countP p + (if p a then 1 else 0) = l.countP p + (if p b then 1 else 0) := by
  induction l generalizing i with
  | nil => simp at h
  | cons x xs ih =>
    cases i with
    | zero =>
      simp at h
      subst h
      simp only [List.set_cons_zero, List.countP_cons]
      omega
    | succ j =>
      simp at h
      have := ih j (by simpa using h)
      simp only [List.set_cons_succ, List.countP_cons]
      omega

theorem countP_set_same {α : Type} (p : α → Bool) (l : List α) (i : Nat) (a b : α)
    (h : l.get? i = some a) (hp : p b = p a) :
    (l.set i b).countP p = l.countP p := by
  have := countP_set_add p l i a b h
  rw [hp] at this
  omega

theorem mem_of_get? {α : Type} {l : List α} {i : Nat} {a : α} (h : l.get? i = some a) :
    a ∈ l := by
  rw [List.get?_eq_some] at h
  obtain ⟨hi, rfl⟩ := h
  exact List.get_mem l i hi

/-! ## Facts on the runner -/

theorem Runner.recv_nonneg {rn rn1 : Runner} {req : RunRequest}
    (h : rn.recv req = some rn1) (hd : 0 ≤ req.Delay) :
    rn.phase = .collecting ∧ rn1.phase = .collecting ∧
      rn1.received = rn.received ++ [req] ∧
      rn1.waiters = rn.waiters ++ req.Notify.toList ∧
      rn1.requests = rn.requests ∧ rn1.runNum = rn.runNum := by
  unfold Runner.recv at h
  split at h
  · rename_i hph
    rw [durMul_zero_Second] at h
    rw [if_neg (by omega)] at h
    split at h
    · rename_i c hc
      cases h
      simp [hph, hc]
    · rename_i hc
      cases h
      simp [hph, hc]
  · cases h

theorem Runner.recv_closeMarker {rn rn1 : Runner}
    (h : rn.recv closeMarker = some rn1) :
    rn.phase = .collecting ∧ rn1.phase = .running ∧
      rn1.received = rn.received ++ [closeMarker] ∧
      rn1.waiters = rn.waiters ∧
      rn1.requests = rn.requests ∧ rn1.runNum = rn.runNum := by
  unfold Runner.recv at h
  split at h
  · rename_i hph
    rw [durMul_zero_Second, closeMarker_Delay] at h
    rw [if_pos (by omega)] at h
    cases h
    simp [hph]
  · cases h

theorem Runner.recv_some {rn rn1 : Runner} {req : RunRequest}
    (h : rn.recv req = some rn1) :
    rn.phase = .collecting ∧ rn1.received = rn.received ++ [req] ∧
      rn1.requests = rn.requests ∧ rn1.runNum = rn.runNum := by
  unfold Runner.recv at h
  split at h
  · rename_i hph
    split at h
    · cases h
      simp [hph]
    · split at h <;> (cases h; simp [hph])
  · cases h

theorem Runner.next_some {rn rn1 : Runner} {e : Effect}
    (h : rn.next = some (e, rn1)) :
    rn.phase ≠ .collecting ∧ rn.phase ≠ .done ∧ rn1.phase ≠ .collecting ∧
      rn1.phase ≠ .running ∧
      rn1.received = rn.received ∧ rn1.waiters = rn.waiters ∧
      rn1.requests = rn.requests ∧ rn1.runNum = rn.runNum ∧
      (rn1.phase = .done ↔ e = .token) := by
  unfold Runner.next at h
  split at h
  · cases h
  · rename_i hph
    cases h
    simp [hph]
  · rename_i k hph
    split at h
    · cases h
      simp [hph]
    · cases h
      simp [hph]
  · cases h

/-! ## The token invariant -/

theorem Runner.cnr_eq_of_ok {r : Runner} (h : r.ok) :
    r.closedNotReturned = (decide (r.phase ≠ .collecting) && decide (r.phase ≠ .done)) := by
  unfold Runner.closedNotReturned
  unfold Runner.ok at h
  by_cases hc : r.phase = .collecting
  · have := h.mp hc
    simp [hc, this]
  · have : closeMarker ∈ r.received := by
      by_contra hn
      exact hc (h.mpr hn)
    simp [hc, this]

theorem Runner.ok_recv_nonneg {rn rn1 : Runner} {req : RunRequest}
    (h : rn.recv req = some rn1) (hd : 0 ≤ req.Delay) (hok : rn.ok) :
    rn1.ok ∧ rn1.closedNotReturned = rn.closedNotReturned := by
  obtain ⟨h1, h2, h3, -, -, -⟩ := Runner.recv_nonneg h hd
  have hok1 : rn1.ok := by
    unfold Runner.ok at *
    rw [h2, h3]
    have hm := hok.mp h1
    have hne : closeMarker ≠ req := fun e => ne_closeMarker_of_nonneg hd e.symm
    simp [hm, hne]
  refine ⟨hok1, ?_⟩
  rw [Runner.cnr_eq_of_ok hok1, Runner.cnr_eq_of_ok hok, h1, h2]

theorem Runner.ok_recv_closeMarker {rn rn1 : Runner}
    (h : rn.recv closeMarker = some rn1) (hok : rn.ok) :
    rn1.ok ∧ rn1.closedNotReturned = true ∧ rn.closedNotReturned = false := by
  obtain ⟨h1, h2, h3, -, -, -⟩ := Runner.recv_closeMarker h
  have hok1 : rn1.ok := by
    unfold Runner.ok
    rw [h2, h3]
    simp
  refine ⟨hok1, ?_, ?_⟩
  · rw [Runner.cnr_eq_of_ok hok1, h2]
    rfl
  · rw [Runner.cnr_eq_of_ok hok, h1]
    rfl

theorem Runner.ok_next {rn rn1 : Runner} {e : Effect}
    (h : rn.next = some (e, rn1)) (hok : rn.ok) :
    rn1.ok ∧ rn.closedNotReturned = true ∧
      (rn1.closedNotReturned = decide (e ≠ .token)) := by
  obtain ⟨h1, h2, h3, -, h5, -, -, -, h9⟩ := Runner.next_some h
  have hok1 : rn1.ok := by
    unfold Runner.ok at *
    rw [h5]
    constructor
    · intro hc
      exact absurd hc h3
    · intro hn
      exact absurd (hok.mpr hn) h1
  refine ⟨hok1, ?_, ?_⟩
  · rw [Runner.cnr_eq_of_ok hok]
    simp [h1, h2]
  · rw [Runner.cnr_eq_of_ok hok1]
    by_cases he : e = .token
    · simp [h9.mpr he, he]
    · have : rn1.phase ≠ .done := fun hd => he (h9.mp hd)
      simp [h3, this, he]

theorem PuppetRunner_ok (q n : Nat) :
    (PuppetRunner q n).ok ∧ (PuppetRunner q n).closedNotReturned = false := by
  constructor
  · simp [Runner.ok, PuppetRunner]
  · simp [Runner.closedNotReturned, PuppetRunner]

theorem tokenInv_init : TokenInv init := by
  constructor <;> simp [init, SPhase.pending]

theorem tokenInv_handler {s s1 : State} {u : URL} {notify sent : List Nat} {c : Option Nat}
    (inv : TokenInv s)
    (hok : ∀ args, parseClientArgs u = .ok args → 0 ≤ args.Delay)
    (h : (match parseClientArgs u with
      | .error _ => some s
      | .ok args =>
        if s.incoming.length < 100 then
          some { s with notify := notify, sent := sent,
                        incoming := s.incoming ++ [⟨args.Delay, c⟩] }
        else none) = some s1) : TokenInv s1 := by
  split at h
  · cases h
    exact inv
  · rename_i args hp
    split at h
    · cases h
      refine ⟨?_, inv.pending_nonneg, inv.runner_ok, inv.balance, inv.fresh⟩
      intro r hr
      simp only [List.mem_append, List.mem_singleton] at hr
      rcases hr with hr | hr
      · exact inv.incoming_nonneg r hr
      · subst hr
        exact hok args hp
    · cases h

theorem delayOK_async {u : URL} (h : (Label.async u).delayOK = true) :
    ∀ args, parseClientArgs u = .ok args → 0 ≤ args.Delay := by
  intro args hp
  simp [Label.delayOK, hp] at h
  exact h

theorem delayOK_sync {u : URL} (h : (Label.sync u).delayOK = true) :
    ∀ args, parseClientArgs u = .ok args → 0 ≤ args.Delay := by
  intro args hp
  simp [Label.delayOK, hp] at h
  exact h

theorem tokenInv_handlerRecv {s s1 : State} {c : Nat} (inv : TokenInv s)
    (h : handlerRecv s c = some s1) : TokenInv s1 := by
  unfold handlerRecv at h
  split at h
  · cases h
    exact ⟨inv.incoming_nonneg, inv.pending_nonneg, inv.runner_ok, inv.balance, inv.fresh⟩
  · cases h

theorem tokenInv_seed {s s1 : State} (inv : TokenInv s)
    (h : seedStep s = some s1) : TokenInv s1 := by
  unfold seedStep at h
  split at h
  · rename_i hpc
    split at h
    · cases h
      obtain ⟨h0, hr⟩ := inv.fresh hpc
      refine ⟨inv.incoming_nonneg, ?_, ?_, ?_, ?_⟩
      · intro r hr
        simp [SPhase.pending] at hr
      · intro r hr1
        simp only [hr, List.nil_append, List.mem_singleton] at hr1
        subst hr1
        exact (PuppetRunner_ok _ _).1
      · intro _
        simp [State.closedNotReturned, hr, h0, SPhase.held, (PuppetRunner_ok _ _).2]
      · intro hc
        simp at hc
    · cases h
  · cases h

theorem tokenInv_recvIncoming {s s1 : State} (inv : TokenInv s)
    (h : recvIncoming s = some s1) : TokenInv s1 := by
  unfold recvIncoming at h
  split at h
  · cases h
  · rename_i request rest hin
    have hin1 : ∀ r ∈ rest, 0 ≤ r.Delay := fun r hr =>
      inv.incoming_nonneg r (by rw [hin]; exact List.mem_cons_of_mem _ hr)
    have hreq : 0 ≤ request.Delay := inv.incoming_nonneg request (by rw [hin]; simp)
    split at h
    · rename_i hpc
      have hb := inv.balance (by rw [hpc]; simp)
      rw [hpc] at hb
      split at h
      · cases h
        refine ⟨hin1, ?_, inv.runner_ok, ?_, ?_⟩
        · intro r hr
          simp only [SPhase.pending, Option.some.injEq] at hr
          subst hr
          exact hreq
        · intro _
          simpa [SPhase.held, State.closedNotReturned] using hb
        · intro hc
          simp at hc
      · cases h
        refine ⟨hin1, ?_, inv.runner_ok, ?_, ?_⟩
        · intro r hr
          simp [hpc, SPhase.pending] at hr
        · intro _
          simpa [hpc, SPhase.held, State.closedNotReturned] using hb
        · intro hc
          simp [hpc] at hc
    · rename_i hpc
      have hb := inv.balance (by rw [hpc]; simp)
      rw [hpc] at hb
      split at h
      · cases h
        refine ⟨hin1, ?_, inv.runner_ok, ?_, ?_⟩
        · intro r hr
          simp only [SPhase.pending, Option.some.injEq] at hr
          subst hr
          exact hreq
        · intro _
          simpa [SPhase.held, State.closedNotReturned] using hb
        · intro hc
          simp at hc
      · cases h
        refine ⟨hin1, ?_, inv.runner_ok, ?_, ?_⟩
        · intro r hr
          simp [hpc, SPhase.pending] at hr
        · intro _
          simpa [hpc, SPhase.held, State.closedNotReturned] using hb
        · intro hc
          simp [hpc] at hc
    · cases h

theorem ok_set {l : List Runner} {i : Nat} {b : Runner}
    (hl : ∀ r ∈ l, r.ok) (hb : b.ok) : ∀ r ∈ l.set i b, r.ok := by
  intro r hr
  rcases List.mem_or_eq_of_mem_set hr with h | h
  · exact hl r h
  · subst h
    exact hb

theorem tokenInv_deliver {s s1 : State} {i : Nat} (inv : TokenInv s)
    (h : deliver s i = some s1) : TokenInv s1 := by
  unfold deliver at h
  split at h
  · cases h
  · rename_i rn hrn
    have hmem : rn ∈ s.runners := mem_of_get? hrn
    have hok := inv.runner_ok rn hmem
    split at h
    · split at h
      · rename_i request hpc
        have hreq : 0 ≤ request.Delay := inv.pending_nonneg request (by rw [hpc]; rfl)
        have hb := inv.balance (by rw [hpc]; simp)
        rw [hpc] at hb
        split at h
        · cases h
        · rename_i rn1 hrecv
          cases h
          obtain ⟨hok1, hc⟩ := Runner.ok_recv_nonneg hrecv hreq hok
          refine ⟨inv.incoming_nonneg, ?_, ok_set inv.runner_ok hok1, ?_, ?_⟩
          · intro r hr
            simp [SPhase.pending] at hr
          · intro _
            simp only [State.closedNotReturned, SPhase.held] at hb ⊢
            rw [countP_set_same _ _ _ _ _ hrn hc]
            exact hb
          · intro hc
            simp at hc
      · rename_i request hpc
        have hreq : 0 ≤ request.Delay := inv.pending_nonneg request (by rw [hpc]; rfl)
        have hb := inv.balance (by rw [hpc]; simp)
        rw [hpc] at hb
        split at h
        · cases h
        · rename_i rn1 hrecv
          cases h
          obtain ⟨hok1, hc⟩ := Runner.ok_recv_nonneg hrecv hreq hok
          refine ⟨inv.incoming_nonneg, ?_, ok_set inv.runner_ok hok1, ?_, ?_⟩
          · intro r hr
            simp [SPhase.pending] at hr
          · intro _
            simp only [State.closedNotReturned, SPhase.held] at hb ⊢
            rw [countP_set_same _ _ _ _ _ hrn hc]
            exact hb
          · intro hc
            simp at hc
      · rename_i hpc
        have hb := inv.balance (by rw [hpc]; simp)
        rw [hpc] at hb
        split at h
        · cases h
        · rename_i rn1 hrecv
          cases h
          obtain ⟨hok1, hc1, hc0⟩ := Runner.ok_recv_closeMarker hrecv hok
          refine ⟨inv.incoming_nonneg, ?_, ?_, ?_, ?_⟩
          · intro r hr
            simp [SPhase.pending] at hr
          · intro r hr
            simp only [List.mem_append, List.mem_singleton] at hr
            rcases hr with hr | hr
            · exact ok_set inv.runner_ok hok1 r hr
            · subst hr
              exact (PuppetRunner_ok _ _).1
          · intro _
            simp only [State.closedNotReturned, SPhase.held] at hb ⊢
            have hcount := countP_set_add Runner.closedNotReturned s.runners i rn rn1 hrn
            rw [hc1, hc0] at hcount
            simp only [List.countP_append, List.countP_cons, List.countP_nil,
              (PuppetRunner_ok _ _).2] at hcount ⊢
            simp at hcount ⊢
            omega
          · intro hc
            simp at hc
      · cases h
    · cases h

theorem tokenInv_timerFire {s s1 : State} {j : Nat} (inv : TokenInv s)
    (h : timerFire s j = some s1) : TokenInv s1 := by
  unfold timerFire at h
  split at h
  · split at h
    · cases h
    · cases h
      exact ⟨inv.incoming_nonneg, inv.pending_nonneg, inv.runner_ok, inv.balance, inv.fresh⟩
  · cases h

theorem tokenInv_report {s s1 : State} {j : Nat} (inv : TokenInv s)
    (h : report s j = some s1) : TokenInv s1 := by
  unfold report at h
  split at h
  · rename_i hpc
    have hb := inv.balance (by rw [hpc]; simp)
    rw [hpc] at hb
    split at h
    · split at h
      · split at h
        · cases h
          refine ⟨inv.incoming_nonneg, ?_, inv.runner_ok, ?_, ?_⟩
          · intro r hr
            simp [hpc, SPhase.pending] at hr
          · intro _
            simpa [hpc, SPhase.held, State.closedNotReturned] using hb
          · intro hc
            simp [hpc] at hc
        · cases h
          refine ⟨inv.incoming_nonneg, ?_, inv.runner_ok, ?_, ?_⟩
          · intro r hr
            simp [SPhase.pending] at hr
          · intro _
            simpa [SPhase.held, State.closedNotReturned] using hb
          · intro hc
            simp at hc
      · cases h
    · cases h
  · cases h

theorem tokenInv_takeToken {s s1 : State} (inv : TokenInv s)
    (h : takeToken s = some s1) : TokenInv s1 := by
  unfold takeToken at h
  split at h
  · rename_i hpc
    have hb := inv.balance (by rw [hpc]; simp)
    rw [hpc] at hb
    split at h
    · rename_i hpos
      cases h
      refine ⟨inv.incoming_nonneg, ?_, inv.runner_ok, ?_, ?_⟩
      · intro r hr
        simp [SPhase.pending] at hr
      · intro _
        simp only [SPhase.held, State.closedNotReturned] at hb ⊢
        omega
      · intro hc
        simp at hc
    · cases h
  · cases h

theorem tokenInv_runnerStep {s s1 : State} {i : Nat} (inv : TokenInv s)
    (h : runnerStep s i = some s1) : TokenInv s1 := by
  unfold runnerStep at h
  split at h
  · cases h
  · rename_i rn hrn
    have hmem : rn ∈ s.runners := mem_of_get? hrn
    have hok := inv.runner_ok rn hmem
    have hne : s.pc ≠ .init := by
      intro hc
      rw [(inv.fresh hc).2] at hmem
      simp at hmem
    have hb := inv.balance hne
    split at h
    · cases h
    · rename_i rn1 hnext
      cases h
      obtain ⟨hok1, hc0, hc1⟩ := Runner.ok_next hnext hok
      refine ⟨inv.incoming_nonneg, inv.pending_nonneg, ok_set inv.runner_ok hok1, ?_, ?_⟩
      · intro _
        simp only [State.closedNotReturned] at hb ⊢
        rw [countP_set_same _ _ _ _ _ hrn (by rw [hc0, hc1]; rfl)]
        exact hb
      · intro hc
        exact absurd hc hne
    · rename_i c rn1 hnext
      obtain ⟨hok1, hc0, hc1⟩ := Runner.ok_next hnext hok
      split at h
      · cases h
        refine ⟨inv.incoming_nonneg, inv.pending_nonneg, ok_set inv.runner_ok hok1, ?_, ?_⟩
        · intro _
          simp only [State.closedNotReturned] at hb ⊢
          rw [countP_set_same _ _ _ _ _ hrn (by rw [hc0, hc1]; rfl)]
          exact hb
        · intro hc
          exact absurd hc hne
      · cases h
    · rename_i rn1 hnext
      obtain ⟨hok1, hc0, hc1⟩ := Runner.ok_next hnext hok
      split at h
      · cases h
        refine ⟨inv.incoming_nonneg, inv.pending_nonneg, ok_set inv.runner_ok hok1, ?_, ?_⟩
        · intro _
          simp only [State.closedNotReturned] at hb ⊢
          have hcount := countP_set_add Runner.closedNotReturned s.runners i rn rn1 hrn
          rw [hc0, hc1] at hcount
          simp at hcount
          omega
        · intro hc
          exact absurd hc hne
      · cases h

theorem tokenInv_step {s s1 : State} {l : Label} (inv : TokenInv s)
    (hl : l.delayOK = true) (h : step s l = some s1) : TokenInv s1 := by
  cases l with
  | async u => exact tokenInv_handler inv (delayOK_async hl) h
  | sync u => exact tokenInv_handler inv (delayOK_sync hl) h
  | handlerRecv c => exact tokenInv_handlerRecv inv h
  | seed => exact tokenInv_seed inv h
  | recvIncoming => exact tokenInv_recvIncoming inv h
  | deliver i => exact tokenInv_deliver inv h
  | timerFire j => exact tokenInv_timerFire inv h
  | report j => exact tokenInv_report inv h
  | takeToken => exact tokenInv_takeToken inv h
  | runner i => exact tokenInv_runnerStep inv h

theorem tokenInv_run {ls : List Label} {s s1 : State} (inv : TokenInv s)
    (hl : ∀ l ∈ ls, l.delayOK = true) (h : run s ls = some s1) : TokenInv s1 := by
  induction ls generalizing s with
  | nil =>
    simp only [run, Option.some.injEq] at h
    subst h
    exact inv
  | cons l ls ih =>
    simp only [run] at h
    split at h
    · cases h
    · rename_i s2 hs
      exact ih (tokenInv_step inv (hl l (by simp)) hs) (fun l1 h1 => hl l1 (by simp [h1])) h

/-! ## The scheduler invariant -/

theorem get?_set_cases {α : Type} {l : List α} {i j : Nat} {a b : α}
    (h : (l.set i a).get? j = some b) :
    (j = i ∧ b = a ∧ i < l.length) ∨ (j ≠ i ∧ l.get? j = some b) := by
  induction l generalizing i j with
  | nil => simp at h
  | cons x xs ih =>
    cases i with
    | zero =>
      cases j with
      | zero =>
        simp at h
        left
        simp [h]
      | succ k =>
        right
        simpa using h
    | succ m =>
      cases j with
      | zero =>
        right
        simpa using h
      | succ k =>
        simp only [List.set_cons_succ, List.get?_cons_succ] at h
        rcases ih h with ⟨h1, h2, h3⟩ | ⟨h1, h2⟩
        · left
          simp [h1, h2, h3]
        · right
          simp only [List.get?_cons_succ]
          exact ⟨by omega, h2⟩

theorem get?_snoc_cases {α : Type} {l : List α} {j : Nat} {x b : α}
    (h : (l ++ [x]).get? j = some b) :
    (j < l.length ∧ l.get? j = some b) ∨ (j = l.length ∧ b = x) := by
  rw [List.get?_eq_getElem?] at h
  by_cases hj : j < l.length
  · left
    rw [List.getElem?_append_left hj] at h
    exact ⟨hj, by rw [List.get?_eq_getElem?]; exact h⟩
  · right
    have hlen := (List.getElem?_eq_some.mp h).1
    simp only [List.length_append, List.length_singleton] at hlen
    have hj2 : j = l.length := by omega
    subst hj2
    simp at h
    exact ⟨rfl, h.symm⟩

theorem get?_lt {α : Type} {l : List α} {j : Nat} {b : α} (h : l.get? j = some b) :
    j < l.length := by
  rw [List.get?_eq_some] at h
  exact h.1

theorem schedInv_init : SchedInv init := by
  constructor <;> simp [init, SPhase.pending, State.closings, SPhase.inClosing]

theorem schedInv_handler {s s1 : State} {u : URL} {notify sent : List Nat} {c : Option Nat}
    (inv : SchedInv s)
    (h : (match parseClientArgs u with
      | .error _ => some s
      | .ok args =>
        if s.incoming.length < 100 then
          some { s with notify := notify, sent := sent,
                        incoming := s.incoming ++ [⟨args.Delay, c⟩] }
        else none) = some s1) : SchedInv s1 := by
  split at h
  · cases h
    exact inv
  · split at h
    · cases h
      exact ⟨inv.fresh, inv.made, inv.queue, inv.runNum, inv.ids, inv.pending, inv.marker,
        inv.closings⟩
    · cases h

theorem schedInv_handlerRecv {s s1 : State} {c : Nat} (inv : SchedInv s)
    (h : handlerRecv s c = some s1) : SchedInv s1 := by
  unfold handlerRecv at h
  split at h
  · cases h
    exact ⟨inv.fresh, inv.made, inv.queue, inv.runNum, inv.ids, inv.pending, inv.marker,
      inv.closings⟩
  · cases h

theorem schedInv_seed {s s1 : State} (inv : SchedInv s)
    (h : seedStep s = some s1) : SchedInv s1 := by
  unfold seedStep at h
  split at h
  · rename_i hpc
    split at h
    · cases h
      obtain ⟨hr, hq, hlog⟩ := inv.fresh hpc
      have hm := inv.made
      rw [hr] at hm
      simp only [List.length_nil] at hm
      refine ⟨?_, ?_, ?_, ?_, ?_, ?_, ?_, ?_⟩
      · intro hc
        simp at hc
      · simp [hr, hm]
      · intro _
        simp [hr, hm]
      · intro _
        simp [hm]
      · intro i r hir
        simp only [hr, hm, List.nil_append] at hir
        cases i with
        | zero =>
          simp at hir
          subst hir
          simp [PuppetRunner]
        | succ k => simp at hir
      · intro r hr1
        simp [SPhase.pending] at hr1
      · intro i r hir
        simp only [hr, hm, List.nil_append] at hir
        cases i with
        | zero =>
          simp at hir
          subst hir
          simp [PuppetRunner, hm]
        | succ k => simp at hir
      · simp [State.closings, hlog, hm, SPhase.inClosing]
    · cases h
  · cases h

theorem schedInv_recvIncoming {s s1 : State} (inv : SchedInv s)
    (h : recvIncoming s = some s1) : SchedInv s1 := by
  have hcl := inv.closings
  unfold recvIncoming at h
  split at h
  · cases h
  · rename_i request rest hin
    split at h
    · rename_i hpc
      have hq := inv.queue (by rw [hpc]; simp)
      have hn := inv.runNum (by rw [hpc]; simp)
      split at h
      · rename_i hnot
        cases h
        refine ⟨?_, inv.made, fun _ => hq, fun _ => hn, inv.ids, ?_, inv.marker, ?_⟩
        · intro hc
          simp at hc
        · intro r hr
          simp only [SPhase.pending, Option.some.injEq] at hr
          subst hr
          exact hnot
        · simp only [State.closings, hpc] at hcl ⊢
          simpa [SPhase.inClosing, List.filterMap_append] using hcl
      · cases h
        refine ⟨?_, inv.made, fun _ => hq, fun _ => hn, inv.ids, ?_, inv.marker, ?_⟩
        · intro hc
          simp [hpc] at hc
        · intro r hr
          simp [hpc, SPhase.pending] at hr
        · simp only [State.closings, hpc] at hcl ⊢
          simpa [SPhase.inClosing, List.filterMap_append] using hcl
    · rename_i hpc
      have hq := inv.queue (by rw [hpc]; simp)
      have hn := inv.runNum (by rw [hpc]; simp)
      split at h
      · rename_i hnot
        cases h
        refine ⟨?_, inv.made, fun _ => hq, fun _ => hn, inv.ids, ?_, inv.marker, ?_⟩
        · intro hc
          simp at hc
        · intro r hr
          simp only [SPhase.pending, Option.some.injEq] at hr
          subst hr
          exact hnot
        · simp only [State.closings, hpc] at hcl ⊢
          simpa [SPhase.inClosing, List.filterMap_append] using hcl
      · cases h
        refine ⟨?_, inv.made, fun _ => hq, fun _ => hn, inv.ids, ?_, inv.marker, ?_⟩
        · intro hc
          simp [hpc] at hc
        · intro r hr
          simp [hpc, SPhase.pending] at hr
        · simp only [State.closings, hpc] at hcl ⊢
          simpa [SPhase.inClosing, List.filterMap_append] using hcl
    · cases h

theorem schedInv_timerFire {s s1 : State} {j : Nat} (inv : SchedInv s)
    (h : timerFire s j = some s1) : SchedInv s1 := by
  unfold timerFire at h
  split at h
  · split at h
    · cases h
    · cases h
      exact ⟨inv.fresh, inv.made, inv.queue, inv.runNum, inv.ids, inv.pending, inv.marker,
        inv.closings⟩
  · cases h

theorem schedInv_report {s s1 : State} {j : Nat} (inv : SchedInv s)
    (h : report s j = some s1) : SchedInv s1 := by
  have hcl := inv.closings
  unfold report at h
  split at h
  · rename_i hpc
    have hq := inv.queue (by rw [hpc]; simp)
    have hn := inv.runNum (by rw [hpc]; simp)
    split at h
    · split at h
      · split at h
        · cases h
          refine ⟨?_, inv.made, fun _ => hq, fun _ => hn, inv.ids, ?_, inv.marker, ?_⟩
          · intro hc
            simp [hpc] at hc
          · intro r hr
            simp [hpc, SPhase.pending] at hr
          · simp only [State.closings, hpc] at hcl ⊢
            simpa [SPhase.inClosing, List.filterMap_append] using hcl
        · cases h
          refine ⟨?_, inv.made, fun _ => hq, fun _ => hn, inv.ids, ?_, inv.marker, ?_⟩
          · intro hc
            simp at hc
          · intro r hr
            simp [SPhase.pending] at hr
          · simp only [State.closings, hpc] at hcl ⊢
            simp only [SPhase.inClosing, List.filterMap_append] at hcl ⊢
            simp only [if_true, List.range_succ, List.map_append, List.map_cons, List.map_nil]
            simp at hcl
            simp [hcl, hn]
      · cases h
    · cases h
  · cases h

theorem schedInv_takeToken {s s1 : State} (inv : SchedInv s)
    (h : takeToken s = some s1) : SchedInv s1 := by
  have hcl := inv.closings
  unfold takeToken at h
  split at h
  · rename_i hpc
    have hq := inv.queue (by rw [hpc]; simp)
    have hn := inv.runNum (by rw [hpc]; simp)
    split at h
    · cases h
      refine ⟨?_, inv.made, fun _ => hq, fun _ => hn, inv.ids, ?_, inv.marker, ?_⟩
      · intro hc
        simp at hc
      · intro r hr
        simp [SPhase.pending] at hr
      · simp only [State.closings, hpc] at hcl ⊢
        simpa [SPhase.inClosing, List.filterMap_append] using hcl
    · cases h
  · cases h

theorem schedInv_set_ids {s : State} {i : Nat} {rn rn1 : Runner} (inv : SchedInv s)
    (hrn : s.runners.get? i = some rn)
    (h1 : rn1.requests = rn.requests) (h2 : rn1.runNum = rn.runNum) :
    ∀ j r, (s.runners.set i rn1).get? j = some r → r.requests = j ∧ r.runNum = j % 2 ^ 64 := by
  intro j r hj
  rcases get?_set_cases hj with ⟨hji, hr, -⟩ | ⟨-, hold⟩
  · subst hji
    subst hr
    rw [h1, h2]
    exact inv.ids j rn hrn
  · exact inv.ids j r hold

theorem schedInv_set_marker_req {s : State} {i : Nat} {rn rn1 : Runner} {req : RunRequest}
    (inv : SchedInv s) (hrn : s.runners.get? i = some rn) (hi : rn.requests = s.queue)
    (hrecv : rn1.received = rn.received ++ [req]) (hne : req ≠ closeMarker) :
    ∀ j r, (s.runners.set i rn1).get? j = some r →
      closeMarker ∉ r.received.dropLast ∧ (closeMarker ∈ r.received ↔ j < s.queue) := by
  intro j r hj
  rcases get?_set_cases hj with ⟨hji, hr, -⟩ | ⟨-, hold⟩
  · subst hji
    subst hr
    have hid := (inv.ids j rn hrn).1
    have hm := (inv.marker j rn hrn).2
    have hnot : closeMarker ∉ rn.received := by
      intro hc
      have := hm.mp hc
      omega
    rw [hrecv, List.dropLast_concat]
    refine ⟨hnot, ?_⟩
    constructor
    · intro hc
      simp only [List.mem_append, List.mem_singleton] at hc
      rcases hc with hc | hc
      · exact absurd hc hnot
      · exact absurd hc.symm hne
    · intro hlt
      omega
  · exact inv.marker j r hold

theorem schedInv_deliver {s s1 : State} {i : Nat} (inv : SchedInv s)
    (h : deliver s i = some s1) : SchedInv s1 := by
  have hcl := inv.closings
  unfold deliver at h
  split at h
  · cases h
  · rename_i rn hrn
    split at h
    · rename_i hreqs
      split at h
      · rename_i request hpc
        have hq := inv.queue (by rw [hpc]; simp)
        have hn := inv.runNum (by rw [hpc]; simp)
        have hnot := inv.pending request (by rw [hpc]; rfl)
        split at h
        · cases h
        · rename_i rn1 hrecv
          cases h
          obtain ⟨-, h2, h3, h4⟩ := Runner.recv_some hrecv
          refine ⟨?_, ?_, ?_, fun _ => hn, schedInv_set_ids inv hrn h3 h4, ?_,
            schedInv_set_marker_req inv hrn hreqs h2 (ne_closeMarker_of_notify hnot), ?_⟩
          · intro hc
            simp at hc
          · simpa using inv.made
          · intro _
            simpa using hq
          · intro r hr
            simp [SPhase.pending] at hr
          · simp only [State.closings, hpc] at hcl ⊢
            simpa [SPhase.inClosing, List.filterMap_append] using hcl
      · rename_i request hpc
        have hq := inv.queue (by rw [hpc]; simp)
        have hn := inv.runNum (by rw [hpc]; simp)
        have hnot := inv.pending request (by rw [hpc]; rfl)
        split at h
        · cases h
        · rename_i rn1 hrecv
          cases h
          obtain ⟨-, h2, h3, h4⟩ := Runner.recv_some hrecv
          refine ⟨?_, ?_, ?_, fun _ => hn, schedInv_set_ids inv hrn h3 h4, ?_,
            schedInv_set_marker_req inv hrn hreqs h2 (ne_closeMarker_of_notify hnot), ?_⟩
          · intro hc
            simp at hc
          · simpa using inv.made
          · intro _
            simpa using hq
          · intro r hr
            simp [SPhase.pending] at hr
          · simp only [State.closings, hpc] at hcl ⊢
            simpa [SPhase.inClosing, List.filterMap_append] using hcl
      · rename_i hpc
        have hq := inv.queue (by rw [hpc]; simp)
        have hn := inv.runNum (by rw [hpc]; simp)
        have hmade := inv.made
        split at h
        · cases h
        · rename_i rn1 hrecv
          cases h
          obtain ⟨-, h2, h3, h4⟩ := Runner.recv_some hrecv
          have hid := (inv.ids i rn hrn).1
          have hm := (inv.marker i rn hrn).2
          have hnotin : closeMarker ∉ rn.received := by
            intro hc
            have := hm.mp hc
            omega
          refine ⟨?_, ?_, ?_, ?_, ?_, ?_, ?_, ?_⟩
          · intro hc
            simp at hc
          · simp [hmade]
          · intro _
            simp [hmade]
          · intro _
            simp only []
            rw [hn, hmade, ← hq]
            omega
          · intro j r hj
            rcases get?_snoc_cases hj with ⟨-, hj1⟩ | ⟨hj1, hr⟩
            · exact schedInv_set_ids inv hrn h3 h4 j r hj1
            · subst hr
              simp only [List.length_set] at hj1
              subst hj1
              simp only [PuppetRunner]
              refine ⟨hmade, ?_⟩
              rw [hn, ← hq]
              omega
          · intro r hr
            simp [SPhase.pending] at hr
          · intro j r hj
            simp only []
            rcases get?_snoc_cases hj with ⟨hjlt, hj1⟩ | ⟨hj1, hr⟩
            · simp only [List.length_set] at hjlt
              rcases get?_set_cases hj1 with ⟨hji, hr, -⟩ | ⟨hji, hold⟩
              · subst hji
                subst hr
                rw [h2, List.dropLast_concat]
                refine ⟨hnotin, ?_⟩
                constructor
                · intro _
                  omega
                · intro _
                  simp
              · have hmj := inv.marker j r hold
                refine ⟨hmj.1, ?_⟩
                rw [hmj.2]
                constructor <;> intro _ <;> omega
            · subst hr
              simp only [List.length_set] at hj1
              subst hj1
              simp only [PuppetRunner, List.dropLast_nil, List.not_mem_nil, not_false_eq_true,
                false_iff, true_and]
              omega
          · simp only [State.closings, hpc] at hcl ⊢
            simp only [SPhase.inClosing, List.filterMap_append] at hcl ⊢
            simp only [if_true] at hcl
            simp [hcl, hmade, ← hq]
      · cases h
    · cases h

theorem schedInv_runnerStep {s s1 : State} {i : Nat} (inv : SchedInv s)
    (h : runnerStep s i = some s1) : SchedInv s1 := by
  have key : ∀ rn rn1 e, s.runners.get? i = some rn → rn.next = some (e, rn1) →
      ∀ s2 : State, s2.runners = s.runners.set i rn1 → s2.pc = s.pc → s2.queue = s.queue →
        s2.runNum = s.runNum → s2.queuesMade = s.queuesMade → s2.log = s.log →
        SchedInv s2 := by
    intro rn rn1 e hrn hnext s2 e1 e2 e3 e4 e5 e6
    obtain ⟨-, -, -, -, h5, -, h7, h8, -⟩ := Runner.next_some hnext
    refine ⟨?_, ?_, ?_, ?_, ?_, ?_, ?_, ?_⟩
    · intro hc
      rw [e2] at hc
      have := (inv.fresh hc).1
      rw [this] at hrn
      simp at hrn
    · rw [e5, e1, List.length_set]
      exact inv.made
    · intro hc
      rw [e3, e1, List.length_set]
      exact inv.queue (by rw [← e2]; exact hc)
    · intro hc
      rw [e3, e4]
      exact inv.runNum (by rw [← e2]; exact hc)
    · rw [e1]
      exact schedInv_set_ids inv hrn h7 h8
    · rw [e2]
      exact inv.pending
    · rw [e1, e3]
      intro j r hj
      rcases get?_set_cases hj with ⟨hji, hr, -⟩ | ⟨-, hold⟩
      · subst hji
        subst hr
        rw [h5]
        exact inv.marker j rn hrn
      · exact inv.marker j r hold
    · have := inv.closings
      simp only [State.closings] at this ⊢
      rw [e6, e2, e3]
      exact this
  unfold runnerStep at h
  split at h
  · cases h
  · rename_i rn hrn
    split at h
    · cases h
    · rename_i rn1 hnext
      cases h
      exact key rn rn1 _ hrn hnext _ rfl rfl rfl rfl rfl rfl
    · rename_i c rn1 hnext
      split at h
      · cases h
        exact key rn rn1 _ hrn hnext _ rfl rfl rfl rfl rfl rfl
      · cases h
    · rename_i rn1 hnext
      split at h
      · cases h
        exact key rn rn1 _ hrn hnext _ rfl rfl rfl rfl rfl rfl
      · cases h

theorem schedInv_step {s s1 : State} {l : Label} (inv : SchedInv s)
    (h : step s l = some s1) : SchedInv s1 := by
  cases l with
  | async u => exact schedInv_handler inv h
  | sync u => exact schedInv_handler inv h
  | handlerRecv c => exact schedInv_handlerRecv inv h
  | seed => exact schedInv_seed inv h
  | recvIncoming => exact schedInv_recvIncoming inv h
  | deliver i => exact schedInv_deliver inv h
  | timerFire j => exact schedInv_timerFire inv h
  | report j => exact schedInv_report inv h
  | takeToken => exact schedInv_takeToken inv h
  | runner i => exact schedInv_runnerStep inv h

theorem schedInv_run {ls : List Label} {s s1 : State} (inv : SchedInv s)
    (h : run s ls = some s1) : SchedInv s1 := by
  induction ls generalizing s with
  | nil =>
    simp only [run, Option.some.injEq] at h
    subst h
    exact inv
  | cons l ls ih =>
    simp only [run] at h
    split at h
    · cases h
    · rename_i s2 hs
      exact ih (schedInv_step inv hs) h

/-! ## Runners finish in order -/

theorem ordered_set {l : List Runner} {i : Nat} {rn rn1 : Runner} (ho : Ordered l)
    (hrn : l.get? i = some rn) (hnd : rn.phase ≠ .done)
    (hbefore : rn1.phase ≠ .collecting →
      ∀ a ra, a < i → l.get? a = some ra → ra.phase = .done) :
    Ordered (l.set i rn1) := by
  intro a b ra rb hab ha hb hph
  rcases get?_set_cases hb with ⟨hbi, hrb, -⟩ | ⟨hbi, hbold⟩
  · subst hbi
    subst hrb
    rcases get?_set_cases ha with ⟨hai, -, -⟩ | ⟨-, haold⟩
    · omega
    · exact hbefore hph a ra hab haold
  · rcases get?_set_cases ha with ⟨hai, hra, -⟩ | ⟨-, haold⟩
    · subst hai
      exact absurd (ho a b rn rb hab hrn hbold hph) hnd
    · exact ho a b ra rb hab haold hbold hph

theorem ordered_snoc {l : List Runner} {x : Runner} (ho : Ordered l)
    (hx : x.phase = .collecting) : Ordered (l ++ [x]) := by
  intro a b ra rb hab ha hb hph
  rcases get?_snoc_cases hb with ⟨hblt, hbold⟩ | ⟨-, hrb⟩
  · rcases get?_snoc_cases ha with ⟨-, haold⟩ | ⟨hal, -⟩
    · exact ho a b ra rb hab haold hbold hph
    · omega
  · subst hrb
    exact absurd hx hph

theorem ordered_before {l : List Runner} {i : Nat} {rn : Runner} (ho : Ordered l)
    (hrn : l.get? i = some rn) (hph : rn.phase ≠ .collecting) :
    ∀ a ra, a < i → l.get? a = some ra → ra.phase = .done :=
  fun a ra hai ha => ho a i ra rn hai ha hrn hph

theorem ordered_deliver {s s1 : State} {i : Nat} (tinv : TokenInv s) (sinv : SchedInv s)
    (ho : Ordered s.runners) (h : deliver s i = some s1) : Ordered s1.runners := by
  unfold deliver at h
  split at h
  · cases h
  · rename_i rn hrn
    split at h
    · rename_i hreqs
      split at h
      · rename_i request hpc
        have hreq : 0 ≤ request.Delay := tinv.pending_nonneg request (by rw [hpc]; rfl)
        split at h
        · cases h
        · rename_i rn1 hrecv
          cases h
          obtain ⟨h1, h2, -⟩ := Runner.recv_nonneg hrecv hreq
          exact ordered_set ho hrn (by rw [h1]; simp) (fun hc => absurd h2 hc)
      · rename_i request hpc
        have hreq : 0 ≤ request.Delay := tinv.pending_nonneg request (by rw [hpc]; rfl)
        split at h
        · cases h
        · rename_i rn1 hrecv
          cases h
          obtain ⟨h1, h2, -⟩ := Runner.recv_nonneg hrecv hreq
          exact ordered_set ho hrn (by rw [h1]; simp) (fun hc => absurd h2 hc)
      · rename_i hpc
        have hb := tinv.balance (by rw [hpc]; simp)
        rw [hpc] at hb
        simp only [SPhase.held, State.closedNotReturned] at hb
        have hzero : s.runners.countP Runner.closedNotReturned = 0 := by omega
        rw [List.countP_eq_zero] at hzero
        split at h
        · cases h
        · rename_i rn1 hrecv
          cases h
          obtain ⟨h1, -⟩ := Runner.recv_closeMarker hrecv
          have hid := (sinv.ids i rn hrn).1
          refine ordered_snoc (ordered_set ho hrn (by rw [h1]; simp) ?_) rfl
          intro _ a ra hai ha
          have hmem := mem_of_get? ha
          have hcnr := hzero ra hmem
          have hin : closeMarker ∈ ra.received := ((sinv.marker a ra ha).2).mpr (by omega)
          simp only [Runner.closedNotReturned, hin, decide_True, Bool.true_and,
            decide_eq_true_eq, Decidable.not_not] at hcnr
          exact hcnr
      · cases h
    · cases h

theorem ordered_runnerStep {s s1 : State} {i : Nat}
    (ho : Ordered s.runners) (h : runnerStep s i = some s1) : Ordered s1.runners := by
  have key : ∀ rn rn1 e, s.runners.get? i = some rn → rn.next = some (e, rn1) →
      Ordered (s.runners.set i rn1) := by
    intro rn rn1 e hrn hnext
    obtain ⟨h1, h2, -⟩ := Runner.next_some hnext
    exact ordered_set ho hrn h2 (fun _ => ordered_before ho hrn h1)
  unfold runnerStep at h
  split at h
  · cases h
  · rename_i rn hrn
    split at h
    · cases h
    · rename_i rn1 hnext
      cases h
      exact key rn rn1 _ hrn hnext
    · rename_i c rn1 hnext
      split at h
      · cases h
        exact key rn rn1 _ hrn hnext
      · cases h
    · rename_i rn1 hnext
      split at h
      · cases h
        exact key rn rn1 _ hrn hnext
      · cases h

theorem ordered_seed {s s1 : State} (sinv : SchedInv s)
    (h : seedStep s = some s1) : Ordered s1.runners := by
  unfold seedStep at h
  split at h
  · rename_i hpc
    split at h
    · cases h
      have hr := (sinv.fresh hpc).1
      simp only [hr, List.nil_append]
      intro a b ra rb hab ha hb
      cases b with
      | zero => omega
      | succ k => simp at hb
    · cases h
  · cases h

theorem handler_runners {s s1 : State} {u : URL} {notify sent : List Nat} {c : Option Nat}
    (h : (match parseClientArgs u with
      | .error _ => some s
      | .ok args =>
        if s.incoming.length < 100 then
          some { s with notify := notify, sent := sent,
                        incoming := s.incoming ++ [⟨args.Delay, c⟩] }
        else none) = some s1) : s1.runners = s.runners := by
  split at h
  · cases h
    rfl
  · split at h
    · cases h
      rfl
    · cases h

theorem handlerRecv_runners {s s1 : State} {c : Nat}
    (h : handlerRecv s c = some s1) : s1.runners = s.runners := by
  unfold handlerRecv at h
  split at h
  · cases h
    rfl
  · cases h

theorem recvIncoming_runners {s s1 : State}
    (h : recvIncoming s = some s1) : s1.runners = s.runners := by
  unfold recvIncoming at h
  split at h
  · cases h
  · split at h
    · split at h <;> (cases h; rfl)
    · split at h <;> (cases h; rfl)
    · cases h

theorem timerFire_runners {s s1 : State} {j : Nat}
    (h : timerFire s j = some s1) : s1.runners = s.runners := by
  unfold timerFire at h
  split at h
  · split at h
    · cases h
    · cases h
      rfl
  · cases h

theorem report_runners {s s1 : State} {j : Nat}
    (h : report s j = some s1) : s1.runners = s.runners := by
  unfold report at h
  split at h
  · split at h
    · split at h
      · split at h <;> (cases h; rfl)
      · cases h
    · cases h
  · cases h

theorem takeToken_runners {s s1 : State}
    (h : takeToken s = some s1) : s1.runners = s.runners := by
  unfold takeToken at h
  split at h
  · split at h
    · cases h
      rfl
    · cases h
  · cases h

theorem ordered_step {s s1 : State} {l : Label} (tinv : TokenInv s) (sinv : SchedInv s)
    (ho : Ordered s.runners) (h : step s l = some s1) : Ordered s1.runners := by
  cases l with
  | async u => rw [handler_runners h]; exact ho
  | sync u => rw [handler_runners h]; exact ho
  | handlerRecv c => rw [handlerRecv_runners h]; exact ho
  | seed => exact ordered_seed sinv h
  | recvIncoming => rw [recvIncoming_runners h]; exact ho
  | deliver i => exact ordered_deliver tinv sinv ho h
  | timerFire j => rw [timerFire_runners h]; exact ho
  | report j => rw [report_runners h]; exact ho
  | takeToken => rw [takeToken_runners h]; exact ho
  | runner i => exact ordered_runnerStep ho h

theorem ordered_run {ls : List Label} {s s1 : State} (tinv : TokenInv s) (sinv : SchedInv s)
    (ho : Ordered s.runners) (hl : ∀ l ∈ ls, l.delayOK = true)
    (h : run s ls = some s1) : Ordered s1.runners := by
  induction ls generalizing s with
  | nil =>
    simp only [run, Option.some.injEq] at h
    subst h
    exact ho
  | cons l ls ih =>
    simp only [run] at h
    split at h
    · cases h
    · rename_i s2 hs
      have hl0 := hl l (by simp)
      exact ih (tokenInv_step tinv hl0 hs) (schedInv_step sinv hs)
        (ordered_step tinv sinv ho hs) (fun l1 h1 => hl l1 (by simp [h1])) h

theorem ordered_init : Ordered init.runners := by
  intro a b ra rb _ ha
  simp [init] at ha

/-! ## Main results -/

/-- C1 (single flight).  In every state reached from the start of the program
by steps whose submitted requests have a delay of at least zero, at most one
runner is between "starting puppet run" and "finished puppet run"; moreover a
runner that has left its receive loop is preceded only by runners that have
returned, so that runner N+1 never starts its action before runner N has
finished its own. -/
theorem single_flight (ls : List Label) (s : State)
    (hl : ∀ l ∈ ls, l.delayOK = true) (h : run init ls = some s) :
    s.executing ≤ 1 ∧
    ∀ i j ri rj, i < j → s.runners.get? i = some ri → s.runners.get? j = some rj →
      rj.phase ≠ .collecting → ri.phase = .done := by
  have tinv := tokenInv_run tokenInv_init hl h
  have sinv := schedInv_run schedInv_init h
  refine ⟨?_, ordered_run tokenInv_init schedInv_init ordered_init hl h⟩
  by_cases hpc : s.pc = .init
  · simp [State.executing, (tinv.fresh hpc).2]
  · have hb := tinv.balance hpc
    have hle : s.executing ≤ s.closedNotReturned := by
      unfold State.executing State.closedNotReturned
      apply List.countP_mono_left
      intro r hr hex
      rw [Runner.cnr_eq_of_ok (tinv.runner_ok r hr)]
      simp only [Runner.executing, decide_eq_true_eq] at hex
      simp [hex]
    omega

theorem single_flight_witness :
    atAction.executing = 1 ∧ (atAction.executing ≤ 1 ∧
    ∀ i j ri rj, i < j → atAction.runners.get? i = some ri →
      atAction.runners.get? j = some rj → rj.phase ≠ .collecting → ri.phase = .done) :=
  ⟨by decide, single_flight runToAction atAction (by decide) (by decide)⟩

theorem consume_collecting (rs rest : List RunRequest) (r : Runner)
    (hph : r.phase = .collecting) (h : ∀ q ∈ rs, 0 ≤ q.Delay) :
    r.consume (rs ++ closeMarker :: rest) =
      ({ r with
          waiters := r.waiters ++ rs.filterMap (·.Notify)
          phase := .running
          received := r.received ++ (rs ++ [closeMarker]) }, rest) := by
  induction rs generalizing r with
  | nil =>
    have h1 : r.recv closeMarker =
        some { r with phase := .running, received := r.received ++ [closeMarker] } := by
      simp only [Runner.recv, hph, durMul_zero_Second, closeMarker_Delay]
      rfl
    have h2 : ({ r with phase := .running, received := r.received ++ [closeMarker] } :
        Runner).recv = fun _ => none := by
      funext q
      simp [Runner.recv]
    simp only [List.nil_append, Runner.consume, h1, List.filterMap_nil, List.append_nil]
    cases rest with
    | nil => simp [Runner.consume]
    | cons q qs => simp [Runner.consume, h2]
  | cons q qs ih =>
    have hq : 0 ≤ q.Delay := h q (by simp)
    have hqs : ∀ x ∈ qs, 0 ≤ x.Delay := fun x hx => h x (by simp [hx])
    simp only [List.cons_append, Runner.consume]
    cases hn : q.Notify with
    | none =>
      have h1 : r.recv q = some { r with received := r.received ++ [q] } := by
        simp only [Runner.recv, hph, durMul_zero_Second, hn]
        rw [if_neg (by omega)]
      rw [h1]
      simp only [List.append_eq]
      rw [ih { r with received := r.received ++ [q] } hph hqs]
      simp [hn]
    | some c =>
      have h1 : r.recv q =
          some { r with waiters := r.waiters ++ [c], received := r.received ++ [q] } := by
        simp only [Runner.recv, hph, durMul_zero_Second, hn]
        rw [if_neg (by omega)]
      rw [h1]
      simp only [List.append_eq]
      rw [ih { r with waiters := r.waiters ++ [c], received := r.received ++ [q] } hph hqs]
      simp [hn]

/-- C4 (runner waiter collection).  When the values delivered on the queue of
a fresh runner are a list `rs` of requests with a delay of at least zero, then
the close marker, then anything else, the runner consumes exactly `rs` and the
marker and leaves the rest, and its `waiters` are the non-nil `Notify`
channels of `rs` in arrival order, one per request that has one. -/
theorem runner_collects (rs rest : List RunRequest) (q n : Nat)
    (h : ∀ r ∈ rs, 0 ≤ r.Delay) :
    (PuppetRunner q n).consume (rs ++ closeMarker :: rest) =
      ({ requests := q
         runNum := n
         waiters := rs.filterMap (·.Notify)
         phase := .running
         received := rs ++ [closeMarker] }, rest) := by
  rw [consume_collecting rs rest (PuppetRunner q n) rfl h]
  simp [PuppetRunner]

theorem runner_collects_witness :
    (PuppetRunner 0 0).consume
        ([⟨0, some 4⟩, ⟨5000000000, none⟩, ⟨0, some 7⟩] ++ closeMarker :: [⟨0, some 9⟩]) =
      ({ requests := 0
         runNum := 0
         waiters := [4, 7]
         phase := .running
         received := [⟨0, some 4⟩, ⟨5000000000, none⟩, ⟨0, some 7⟩, closeMarker] },
       [⟨0, some 9⟩]) :=
  runner_collects [⟨0, some 4⟩, ⟨5000000000, none⟩, ⟨0, some 7⟩] [⟨0, some 9⟩] 0 0
    (by decide)

theorem trace_notifying (r : Runner) (k fuel : Nat) (hph : r.phase = .notifying k)
    (hf : r.waiters.length - k + 1 ≤ fuel) :
    r.trace fuel = (r.waiters.drop k).map Effect.signal ++ [.token] := by
  induction fuel generalizing r k with
  | zero => omega
  | succ f ih =>
    simp only [Runner.trace, Runner.next, hph]
    cases hk : r.waiters.get? k with
    | none =>
      have hlen : r.waiters.length ≤ k := by
        rw [List.get?_eq_none] at hk
        exact hk
      simp only [List.drop_eq_nil_of_le hlen, List.map_nil, List.nil_append]
      cases f with
      | zero => simp [Runner.trace]
      | succ g => simp [Runner.trace, Runner.next]
    | some c =>
      have hlt : k < r.waiters.length := get?_lt hk
      simp only []
      rw [ih { r with phase := .notifying (k + 1) } (k + 1) rfl (by simp only []; omega)]
      simp only []
      have hdrop : r.waiters.drop k = c :: r.waiters.drop (k + 1) := by
        rw [List.drop_eq_getElem_cons hlt]
        rw [List.get?_eq_getElem?, List.getElem?_eq_getElem hlt] at hk
        simp only [Option.some.injEq] at hk
        rw [hk]
      rw [hdrop]
      simp

/-- C5 (runner event order).  A runner that receives the close marker then
performs, in this order and nothing else: the action once, one send on each
element of `waiters` in order, and one send of the token on `readyToRun`. -/
theorem runner_event_order (rn rn1 : Runner) (fuel : Nat)
    (hrecv : rn.recv closeMarker = some rn1) (hf : rn.waiters.length + 2 ≤ fuel) :
    rn1.trace fuel = Effect.action :: (rn.waiters.map Effect.signal ++ [Effect.token]) := by
  obtain ⟨-, h2, -, h4, -, -⟩ := Runner.recv_closeMarker hrecv
  cases fuel with
  | zero => omega
  | succ f =>
    simp only [Runner.trace, Runner.next, h2]
    rw [trace_notifying _ 0 f rfl (by simp only [h4]; omega)]
    simp [h4]

theorem runner_event_order_witness :
    Runner.trace 5 ⟨0, 0, [4, 7], .running, [closeMarker]⟩ =
      [Effect.action, Effect.signal 4, Effect.signal 7, Effect.token] :=
  runner_event_order ⟨0, 0, [4, 7], .collecting, []⟩ ⟨0, 0, [4, 7], .running, [closeMarker]⟩ 5
    (by decide) (by decide)

/-- How a step changes the number of tokens in `readyToRun`. -/
theorem readyToRun_step {s s1 : State} {l : Label} (h : step s l = some s1) :
    s1.readyToRun = s.readyToRun ∨
    (l = .takeToken ∧ s.pc = .closing ∧ s1.pc = .handoff ∧
      s1.readyToRun + 1 = s.readyToRun) ∨
    (l = .seed ∧ s.pc = .init ∧ s1.readyToRun = s.readyToRun + 1) ∨
    (∃ i rn rn1, l = .runner i ∧ s.runners.get? i = some rn ∧
      rn.next = some (.token, rn1) ∧ s1.readyToRun = s.readyToRun + 1) := by
  cases l with
  | async u =>
    left
    simp only [step, AsyncHandler] at h
    split at h
    · cases h; rfl
    · split at h <;> cases h
      rfl
  | sync u =>
    left
    simp only [step, SyncHandler] at h
    split at h
    · cases h; rfl
    · split at h <;> cases h
      rfl
  | handlerRecv c =>
    left
    simp only [step, handlerRecv] at h
    split at h <;> cases h
    rfl
  | seed =>
    simp only [step, seedStep] at h
    split at h
    · rename_i hpc
      split at h <;> cases h
      right; right; left
      exact ⟨rfl, hpc, rfl⟩
    · cases h
  | recvIncoming =>
    left
    simp only [step, recvIncoming] at h
    split at h
    · cases h
    · split at h
      · split at h <;> (cases h; rfl)
      · split at h <;> (cases h; rfl)
      · cases h
  | deliver i =>
    left
    simp only [step, deliver] at h
    split at h
    · cases h
    · split at h
      · split at h
        · split at h <;> cases h
          rfl
        · split at h <;> cases h
          rfl
        · split at h <;> cases h
          rfl
        · cases h
      · cases h
  | timerFire j =>
    left
    simp only [step, timerFire] at h
    split at h
    · split at h <;> cases h
      rfl
    · cases h
  | report j =>
    left
    simp only [step, report] at h
    split at h
    · split at h
      · split at h
        · split at h <;> (cases h; rfl)
        · cases h
      · cases h
    · cases h
  | takeToken =>
    simp only [step, takeToken] at h
    split at h
    · rename_i hpc
      split at h
      · rename_i hpos
        cases h
        right; left
        refine ⟨rfl, hpc, rfl, ?_⟩
        simp only []
        omega
      · cases h
    · cases h
  | runner i =>
    simp only [step, runnerStep] at h
    split at h
    · cases h
    · rename_i rn hrn
      split at h
      · cases h
      · cases h
        left; rfl
      · split at h <;> cases h
        left; rfl
      · rename_i rn1 hnext
        split at h <;> cases h
        right; right; right
        exact ⟨i, rn, rn1, rfl, hrn, hnext, rfl⟩

/-- The scheduler comes to hold the token only by the receive of line 139. -/
theorem handoff_step {s s1 : State} {l : Label} (h : step s l = some s1)
    (h1 : s1.pc = .handoff) : s.pc = .handoff ∨ l = .takeToken := by
  cases l with
  | async u =>
    left
    simp only [step, AsyncHandler] at h
    split at h
    · cases h; exact h1
    · split at h <;> cases h
      exact h1
  | sync u =>
    left
    simp only [step, SyncHandler] at h
    split at h
    · cases h; exact h1
    · split at h <;> cases h
      exact h1
  | handlerRecv c =>
    left
    simp only [step, handlerRecv] at h
    split at h <;> cases h
    exact h1
  | seed =>
    simp only [step, seedStep] at h
    split at h
    · split at h <;> cases h
      simp at h1
    · cases h
  | recvIncoming =>
    simp only [step, recvIncoming] at h
    split at h
    · cases h
    · split at h
      · rename_i hpc
        split at h <;> cases h
        · simp at h1
        · simp [hpc] at h1
      · rename_i hpc
        split at h <;> cases h
        · simp at h1
        · simp [hpc] at h1
      · cases h
  | deliver i =>
    simp only [step, deliver] at h
    split at h
    · cases h
    · split at h
      · split at h
        · split at h <;> cases h
          simp at h1
        · split at h <;> cases h
          simp at h1
        · split at h <;> cases h
          simp at h1
        · cases h
      · cases h
  | timerFire j =>
    left
    simp only [step, timerFire] at h
    split at h
    · split at h <;> cases h
      exact h1
    · cases h
  | report j =>
    simp only [step, report] at h
    split at h
    · rename_i hpc
      split at h
      · split at h
        · split at h <;> cases h
          · simp [hpc] at h1
          · simp at h1
        · cases h
      · cases h
    · cases h
  | takeToken => right; rfl
  | runner i =>
    left
    simp only [step, runnerStep] at h
    split at h
    · cases h
    · split at h
      · cases h
      · cases h
        exact h1
      · split at h <;> cases h
        exact h1
      · split at h <;> cases h
        exact h1

/-- A step that delivers the close marker to a runner starts with the
scheduler holding the token. -/
theorem marker_step {s s1 : State} {i : Nat} {rn1 : Runner} (sinv : SchedInv s)
    (h : step s (.deliver i) = some s1) (h1 : s1.runners.get? i = some rn1)
    (hlast : rn1.received.getLast? = some closeMarker) : s.pc = .handoff := by
  simp only [step, deliver] at h
  split at h
  · cases h
  · rename_i rn hrn
    have hlt := get?_lt hrn
    split at h
    · split at h
      · rename_i request hpc
        have hnot := sinv.pending request (by rw [hpc]; rfl)
        split at h
        · cases h
        · rename_i rn2 hrecv
          cases h
          obtain ⟨-, h2, -⟩ := Runner.recv_some hrecv
          simp only [List.get?_eq_getElem?, List.getElem?_set_self hlt, Option.some.injEq] at h1
          subst h1
          rw [h2, List.getLast?_concat] at hlast
          simp only [Option.some.injEq] at hlast
          exact absurd hlast (ne_closeMarker_of_notify hnot)
      · rename_i request hpc
        have hnot := sinv.pending request (by rw [hpc]; rfl)
        split at h
        · cases h
        · rename_i rn2 hrecv
          cases h
          obtain ⟨-, h2, -⟩ := Runner.recv_some hrecv
          simp only [List.get?_eq_getElem?, List.getElem?_set_self hlt, Option.some.injEq] at h1
          subst h1
          rw [h2, List.getLast?_concat] at hlast
          simp only [Option.some.injEq] at hlast
          exact absurd hlast (ne_closeMarker_of_notify hnot)
      · rename_i hpc
        exact hpc
      · cases h
    · cases h

/-- C6, counterexample.  After the scheduler has received the token (line 139)
and before its send of the close marker (line 142) has met the runner, the
channel `readyToRun` is empty and no runner has been sent the close marker:
the number of tokens in `readyToRun` plus the number of runners that have been
sent the close marker and have not returned is 0, not 1.  All submitted delays
are at least zero. -/
theorem token_count_counterexample :
    (∀ l ∈ runToHandoff, l.delayOK = true) ∧
    run init runToHandoff = some atHandoff ∧
    atHandoff.pc ≠ .init ∧
    atHandoff.readyToRun + atHandoff.closedNotReturned = 0 ∧
    atHandoff.readyToRun + atHandoff.closedNotReturned ≠ 1 := by
  decide

/-- C6, amended (capacity token).  In every state reached by steps whose
submitted delays are at least zero: before the seed `readyToRun` is empty;
after it, the tokens in `readyToRun`, plus one when the scheduler has received
the token and its send of the close marker is not yet complete, plus the
runners that have been sent the close marker and have not returned, are
exactly 1.  A runner at its deferred send finds `readyToRun` empty.  A step
that adds to `readyToRun` is the seed or the deferred send of a runner and adds
one to an empty channel.  The scheduler comes to hold the token only by the
receive of line 139, which takes one token out, and a step that delivers the
close marker starts with the scheduler holding it. -/
theorem token_invariant (ls : List Label) (s : State)
    (hl : ∀ l ∈ ls, l.delayOK = true) (h : run init ls = some s) :
    (s.pc = .init → s.readyToRun = 0) ∧
    (s.pc ≠ .init → s.readyToRun + s.pc.held + s.closedNotReturned = 1) ∧
    (∀ i rn rn1, s.runners.get? i = some rn → rn.next = some (.token, rn1) →
      s.readyToRun = 0) ∧
    (∀ l s1, step s l = some s1 → s.readyToRun < s1.readyToRun →
      s.readyToRun = 0 ∧ s1.readyToRun = 1 ∧
      (l = .seed ∨ ∃ i rn rn1, l = .runner i ∧ s.runners.get? i = some rn ∧
        rn.next = some (.token, rn1))) ∧
    (∀ l s1, step s l = some s1 → s1.pc = .handoff → s.pc ≠ .handoff →
      l = .takeToken ∧ s1.readyToRun + 1 = s.readyToRun) ∧
    (∀ i s1 rn1, step s (.deliver i) = some s1 → s1.runners.get? i = some rn1 →
      rn1.received.getLast? = some closeMarker → s.pc = .handoff) := by
  have tinv := tokenInv_run tokenInv_init hl h
  have sinv := schedInv_run schedInv_init h
  have hsend : ∀ i rn rn1, s.runners.get? i = some rn → rn.next = some (.token, rn1) →
      s.readyToRun = 0 := by
    intro i rn rn1 hrn hnext
    have hmem := mem_of_get? hrn
    have hne : s.pc ≠ .init := by
      intro hc
      rw [(tinv.fresh hc).2] at hmem
      simp at hmem
    have hb := tinv.balance hne
    have hc := (Runner.ok_next hnext (tinv.runner_ok rn hmem)).2.1
    have hpos : 0 < s.closedNotReturned := by
      unfold State.closedNotReturned
      rw [List.countP_pos_iff]
      exact ⟨rn, hmem, hc⟩
    omega
  refine ⟨fun hc => (tinv.fresh hc).1, tinv.balance, hsend, ?_, ?_, ?_⟩
  · intro l s1 hs hlt
    rcases readyToRun_step hs with heq | ⟨-, -, -, hdec⟩ | ⟨hl1, hpc, hinc⟩ |
      ⟨i, rn, rn1, hl1, hrn, hnext, hinc⟩
    · omega
    · omega
    · have h0 := (tinv.fresh hpc).1
      exact ⟨h0, by omega, Or.inl hl1⟩
    · have h0 := hsend i rn rn1 hrn hnext
      exact ⟨h0, by omega, Or.inr ⟨i, rn, rn1, hl1, hrn, hnext⟩⟩
  · intro l s1 hs h1 h0
    rcases handoff_step hs h1 with hc | hc
    · exact absurd hc h0
    · refine ⟨hc, ?_⟩
      rcases readyToRun_step hs with heq | ⟨-, -, -, hdec⟩ | ⟨hl1, -, -⟩ |
        ⟨i, rn, rn1, hl1, -, -, -⟩
      · subst hc
        simp only [step, takeToken] at hs
        split at hs
        · split at hs
          · cases hs
            simp only []
            omega
          · cases hs
        · cases hs
      · exact hdec
      · rw [hc] at hl1
        cases hl1
      · rw [hc] at hl1
        cases hl1
  · intro i s1 rn1 hs h1 hlast
    exact marker_step sinv hs h1 hlast

theorem token_invariant_witness :
    atAction.readyToRun = 0 ∧ atAction.pc.held = 0 ∧ atAction.closedNotReturned = 1 ∧
    ((atAction.pc = .init → atAction.readyToRun = 0) ∧
    (atAction.pc ≠ .init →
      atAction.readyToRun + atAction.pc.held + atAction.closedNotReturned = 1) ∧
    (∀ i rn rn1, atAction.runners.get? i = some rn → rn.next = some (.token, rn1) →
      atAction.readyToRun = 0) ∧
    (∀ l s1, step atAction l = some s1 → atAction.readyToRun < s1.readyToRun →
      atAction.readyToRun = 0 ∧ s1.readyToRun = 1 ∧
      (l = .seed ∨ ∃ i rn rn1, l = .runner i ∧ atAction.runners.get? i = some rn ∧
        rn.next = some (.token, rn1))) ∧
    (∀ l s1, step atAction l = some s1 → s1.pc = .handoff → atAction.pc ≠ .handoff →
      l = .takeToken ∧ s1.readyToRun + 1 = atAction.readyToRun) ∧
    (∀ i s1 rn1, step atAction (.deliver i) = some s1 → s1.runners.get? i = some rn1 →
      rn1.received.getLast? = some closeMarker → atAction.pc = .handoff)) :=
  ⟨by decide, by decide, by decide,
    token_invariant runToAction atAction (by decide) (by decide)⟩

/-- How a step changes `runNum`: only the hand-off of lines 142-145 does,
apart from the initialisation of line 109. -/
theorem runNum_step {s s1 : State} {l : Label} (h : step s l = some s1) :
    s1.runNum = s.runNum ∨ (l = .seed ∧ s.pc = .init) ∨
    (∃ i rn rn1, l = .deliver i ∧ s.pc = .handoff ∧ s.runners.get? i = some rn ∧
      rn.requests = s.queue ∧ rn.recv closeMarker = some rn1 ∧
      s1.runNum = (s.runNum + 1) % 2 ^ 64 ∧ s1.queue = s.queuesMade ∧ s1.pc = .collect ∧
      s1.runners = s.runners.set i rn1 ++ [PuppetRunner s.queuesMade ((s.runNum + 1) % 2 ^ 64)] ∧
      s1.log = s.log ++ [.sendQueue s.queue closeMarker, .makeQueue s.queuesMade,
        .setRunNum ((s.runNum + 1) % 2 ^ 64),
        .goRunner s.queuesMade ((s.runNum + 1) % 2 ^ 64)] ∧
      s1.timers = s.timers ∧ s1.readyToRun = s.readyToRun ∧ s1.incoming = s.incoming) := by
  cases l with
  | async u =>
    left
    simp only [step, AsyncHandler] at h
    split at h
    · cases h; rfl
    · split at h <;> cases h
      rfl
  | sync u =>
    left
    simp only [step, SyncHandler] at h
    split at h
    · cases h; rfl
    · split at h <;> cases h
      rfl
  | handlerRecv c =>
    left
    simp only [step, handlerRecv] at h
    split at h <;> cases h
    rfl
  | seed =>
    simp only [step, seedStep] at h
    split at h
    · rename_i hpc
      right; left
      exact ⟨rfl, hpc⟩
    · cases h
  | recvIncoming =>
    left
    simp only [step, recvIncoming] at h
    split at h
    · cases h
    · split at h
      · split at h <;> (cases h; rfl)
      · split at h <;> (cases h; rfl)
      · cases h
  | deliver i =>
    simp only [step, deliver] at h
    split at h
    · cases h
    · rename_i rn hrn
      split at h
      · rename_i hreq
        split at h
        · split at h <;> cases h
          left; rfl
        · split at h <;> cases h
          left; rfl
        · rename_i hpc
          split at h
          · cases h
          · rename_i rn1 hrecv
            cases h
            right; right
            exact ⟨i, rn, rn1, rfl, hpc, hrn, hreq, hrecv, rfl, rfl, rfl, rfl, rfl, rfl, rfl,
              rfl⟩
        · cases h
      · cases h
  | timerFire j =>
    left
    simp only [step, timerFire] at h
    split at h
    · split at h <;> cases h
      rfl
    · cases h
  | report j =>
    left
    simp only [step, report] at h
    split at h
    · split at h
      · split at h
        · split at h <;> (cases h; rfl)
        · cases h
      · cases h
    · cases h
  | takeToken =>
    left
    simp only [step, takeToken] at h
    split at h
    · split at h <;> cases h
      rfl
    · cases h
  | runner i =>
    left
    simp only [step, runnerStep] at h
    split at h
    · cases h
    · split at h
      · cases h
      · cases h
        rfl
      · split at h <;> cases h
        rfl
      · split at h <;> cases h
        rfl

theorem map_runNum_eq_range {l : List Runner}
    (h : ∀ i r, l.get? i = some r → r.runNum = i) :
    l.map Runner.runNum = List.range l.length := by
  apply List.ext_get?
  intro i
  by_cases hi : i < l.length
  · have h1 : l.get? i = some l[i] := by
      rw [List.get?_eq_getElem?, List.getElem?_eq_getElem hi]
    have h2 := h i _ h1
    simp only [List.get?_eq_getElem?, List.getElem?_map, List.getElem?_eq_getElem hi,
      Option.map_some', List.getElem?_range hi, h2]
  · have h1 : l.length ≤ i := by omega
    simp only [List.get?_eq_getElem?, List.getElem?_map]
    rw [List.getElem?_eq_none h1, List.getElem?_eq_none (by simpa using h1)]
    rfl

/-- C7 (generation ids).  In every state of an execution after the start of
the first runner, while fewer than 2^64 runners have been started (no uint64
wrap-around): the run numbers passed to `PuppetRunner`, in the order of the
`go` statements, are 0, 1, 2, ...; `runNum` is the number of the last runner
started; that runner has not been sent the close marker and every other one
has; and a step that changes `runNum` adds one to it and is the step that
sends the close marker on the old queue and starts the runner of the new run
number on a new queue. -/
theorem generation_ids (ls : List Label) (s : State) (h : run init ls = some s)
    (hstarted : s.pc ≠ .init) (hwrap : s.runners.length < 2 ^ 64) :
    s.runners.map Runner.runNum = List.range s.runners.length ∧
    s.runNum + 1 = s.runners.length ∧
    (∃ r, s.runners.get? s.runNum = some r ∧ r.runNum = s.runNum ∧
      closeMarker ∉ r.received) ∧
    (∀ i r, s.runners.get? i = some r → i ≠ s.runNum → closeMarker ∈ r.received) ∧
    (∀ l s1, step s l = some s1 → s1.runNum ≠ s.runNum →
      s1.runNum = s.runNum + 1 ∧ s.pc = .handoff ∧
      (∃ rn rn1, l = .deliver s.runNum ∧ s.runners.get? s.runNum = some rn ∧
        rn.recv closeMarker = some rn1 ∧
        s1.runners = s.runners.set s.runNum rn1 ++ [PuppetRunner s1.queue s1.runNum])) := by
  have sinv := schedInv_run schedInv_init h
  have hq := sinv.queue hstarted
  have hn := sinv.runNum hstarted
  have hqlt : s.queue < 2 ^ 64 := by omega
  have hnq : s.runNum = s.queue := by
    rw [hn]
    exact Nat.mod_eq_of_lt hqlt
  have hids : ∀ i r, s.runners.get? i = some r → r.runNum = i := by
    intro i r hr
    have hi := get?_lt hr
    rw [(sinv.ids i r hr).2]
    exact Nat.mod_eq_of_lt (by omega)
  refine ⟨map_runNum_eq_range hids, by omega, ?_, ?_, ?_⟩
  · have hlt : s.runNum < s.runners.length := by omega
    have hget : s.runners.get? s.runNum = some s.runners[s.runNum] := by
      rw [List.get?_eq_getElem?, List.getElem?_eq_getElem hlt]
    refine ⟨_, hget, hids _ _ hget, ?_⟩
    intro hc
    have := ((sinv.marker _ _ hget).2).mp hc
    omega
  · intro i r hr hne
    have hi := get?_lt hr
    exact ((sinv.marker i r hr).2).mpr (by omega)
  · intro l s1 hs hne
    rcases runNum_step hs with heq | ⟨-, hpc⟩ |
      ⟨i, rn, rn1, hl, hpc, hrn, hreq, hrecv, hrun, hqueue, -, hrunners, -⟩
    · exact absurd heq hne
    · exact absurd hpc hstarted
    · have hi : i = s.runNum := by
        rw [hnq, ← hreq]
        exact ((sinv.ids i rn hrn).1).symm
      subst hi
      have hrun1 : s1.runNum = s.runNum + 1 := by
        rw [hrun]
        exact Nat.mod_eq_of_lt (by omega)
      refine ⟨hrun1, hpc, rn, rn1, hl, hrn, hrecv, ?_⟩
      rw [hrunners, hqueue, hrun]

theorem generation_ids_witness :
    atAction.runners.map Runner.runNum = [0, 1] ∧ atAction.runNum = 1 ∧
    (atAction.runners.map Runner.runNum = List.range atAction.runners.length ∧
    atAction.runNum + 1 = atAction.runners.length ∧
    (∃ r, atAction.runners.get? atAction.runNum = some r ∧ r.runNum = atAction.runNum ∧
      closeMarker ∉ r.received) ∧
    (∀ i r, atAction.runners.get? i = some r → i ≠ atAction.runNum →
      closeMarker ∈ r.received) ∧
    (∀ l s1, step atAction l = some s1 → s1.runNum ≠ atAction.runNum →
      s1.runNum = atAction.runNum + 1 ∧ atAction.pc = .handoff ∧
      (∃ rn rn1, l = .deliver atAction.runNum ∧
        atAction.runners.get? atAction.runNum = some rn ∧
        rn.recv closeMarker = some rn1 ∧
        s1.runners =
          atAction.runners.set atAction.runNum rn1 ++ [PuppetRunner s1.queue s1.runNum]))) :=
  ⟨by decide, by decide,
    generation_ids runToAction atAction (by decide) (by decide) (by decide)⟩

/-- What the receive of a timer report does. -/
theorem report_spec {s s1 : State} {j : Nat} (h : step s (.report j) = some s1) :
    ∃ t, s.timers.get? j = some t ∧ t.fired = true ∧ s.pc = .collect ∧
      ((t.runNum = s.runNum ∧
        s1 = { s with timers := s.timers.eraseIdx j, pc := .closing,
                      log := s.log ++ [.report t.runNum, .enterClosing s.runNum] }) ∨
       (t.runNum ≠ s.runNum ∧
        s1 = { s with timers := s.timers.eraseIdx j, log := s.log ++ [.report t.runNum] })) := by
  simp only [step, report] at h
  split at h
  · rename_i hpc
    split at h
    · rename_i t ht
      split at h
      · rename_i hf
        split at h
        · rename_i hne
          cases h
          exact ⟨t, ht, hf, hpc, Or.inr ⟨hne, rfl⟩⟩
        · rename_i heq
          cases h
          exact ⟨t, ht, hf, hpc, Or.inl ⟨not_not.mp heq, rfl⟩⟩
      · cases h
    · cases h
  · cases h

theorem map_mod_range {k : Nat} (hk : k ≤ 2 ^ 64) :
    (List.range k).map (· % 2 ^ 64) = List.range k := by
  conv_rhs => rw [← List.map_id (List.range k)]
  apply List.map_congr_left
  intro a ha
  rw [List.mem_range] at ha
  exact Nat.mod_eq_of_lt (by omega)

/-- C8 (first deadline wins, stale reports are drained).  In every state of an
execution, while fewer than 2^64 runners have been started: the run numbers for
which a timer report made the scheduler enter the closing loop are 0, 1, 2, ...
once each, up to the active run number (included when the scheduler is in
the closing loop); a report is received only at the `select` of line 115, and
either it carries the active run number, which has not closed before, and the
scheduler enters the closing loop, or it carries another number, and the step
changes nothing but the list of live timers, from which the reporting timer
is gone (and the history): `runNum`, `queue`, `readyToRun`, the runners and
what they have received, `incoming` and the control point are unchanged and
no timer is added; a timer whose run number has already closed carries a
number other than the active one. -/
theorem first_deadline_wins (ls : List Label) (s : State) (h : run init ls = some s)
    (hwrap : s.runners.length < 2 ^ 64) :
    s.closings = List.range (s.queue + if s.pc.inClosing then 1 else 0) ∧
    (∀ n, s.closings.count n ≤ 1) ∧
    (∀ j s1, step s (.report j) = some s1 →
      ∃ t, s.timers.get? j = some t ∧ t.fired = true ∧ s.pc = .collect ∧
        ((t.runNum = s.runNum ∧ s.runNum ∉ s.closings ∧
          s1 = { s with timers := s.timers.eraseIdx j, pc := .closing,
                        log := s.log ++ [.report t.runNum, .enterClosing s.runNum] }) ∨
         (t.runNum ≠ s.runNum ∧
          s1 = { s with timers := s.timers.eraseIdx j,
                        log := s.log ++ [.report t.runNum] }))) ∧
    (∀ t, t ∈ s.timers → s.pc = .collect → t.runNum ∈ s.closings → t.runNum ≠ s.runNum) := by
  have sinv := schedInv_run schedInv_init h
  have hcl := sinv.closings
  have hbound : s.queue + (if s.pc.inClosing then 1 else 0) ≤ 2 ^ 64 := by
    by_cases hpc : s.pc = .init
    · have := (sinv.fresh hpc).2.1
      simp [hpc, SPhase.inClosing, this]
    · have := sinv.queue hpc
      split <;> omega
  rw [map_mod_range hbound] at hcl
  have hstale : s.pc = .collect → ∀ n, n ∈ s.closings → n ≠ s.runNum := by
    intro hpc n hn
    have hq := sinv.queue (by rw [hpc]; simp)
    have hr := sinv.runNum (by rw [hpc]; simp)
    rw [hcl, hpc] at hn
    simp only [SPhase.inClosing, Bool.false_eq_true, if_false, Nat.add_zero,
      List.mem_range] at hn
    rw [hr, Nat.mod_eq_of_lt (by omega)]
    omega
  refine ⟨hcl, ?_, ?_, ?_⟩
  · intro n
    rw [hcl]
    exact List.nodup_iff_count_le_one.mp (List.nodup_range _) n
  · intro j s1 hs
    obtain ⟨t, ht, hf, hpc, hcase⟩ := report_spec hs
    refine ⟨t, ht, hf, hpc, ?_⟩
    rcases hcase with ⟨heq, hs1⟩ | ⟨hne, hs1⟩
    · left
      exact ⟨heq, fun hc => hstale hpc _ hc rfl, hs1⟩
    · right
      exact ⟨hne, hs1⟩
  · intro t _ hpc hn
    exact hstale hpc _ hn

theorem first_deadline_wins_witness :
    step atStale (.report 0) =
      some { atStale with timers := [], log := atStale.log ++ [.report 0] } ∧
    (atStale.closings = List.range (atStale.queue + if atStale.pc.inClosing then 1 else 0) ∧
    (∀ n, atStale.closings.count n ≤ 1) ∧
    (∀ j s1, step atStale (.report j) = some s1 →
      ∃ t, atStale.timers.get? j = some t ∧ t.fired = true ∧ atStale.pc = .collect ∧
        ((t.runNum = atStale.runNum ∧ atStale.runNum ∉ atStale.closings ∧
          s1 = { atStale with timers := atStale.timers.eraseIdx j, pc := .closing,
                              log := atStale.log ++
                                [.report t.runNum, .enterClosing atStale.runNum] }) ∨
         (t.runNum ≠ atStale.runNum ∧
          s1 = { atStale with timers := atStale.timers.eraseIdx j,
                              log := atStale.log ++ [.report t.runNum] }))) ∧
    (∀ t, t ∈ atStale.timers → atStale.pc = .collect → t.runNum ∈ atStale.closings →
      t.runNum ≠ atStale.runNum)) :=
  ⟨by decide, first_deadline_wins runToStale atStale (by decide) (by decide)⟩

/-- What the receive of the token does. -/
theorem takeToken_spec {s s1 : State} (h : step s .takeToken = some s1) :
    s.pc = .closing ∧ 0 < s.readyToRun ∧
      s1 = { s with readyToRun := s.readyToRun - 1, pc := .handoff,
                    log := s.log ++ [.recvToken] } := by
  simp only [step, takeToken] at h
  split at h
  · rename_i hpc
    split at h
    · rename_i hpos
      cases h
      exact ⟨hpc, hpos, rfl⟩
    · cases h
  · cases h

/-- What the receive of a request does in the closing loop. -/
theorem closing_recv_spec {s s1 : State} (hpc : s.pc = .closing)
    (h : step s .recvIncoming = some s1) :
    ∃ request rest, s.incoming = request :: rest ∧
      ((request.Notify ≠ none ∧
        s1 = { s with incoming := rest, pc := .closingSend request,
                      log := s.log ++ [.recvRequest request] }) ∨
       (request.Notify = none ∧
        s1 = { s with incoming := rest, log := s.log ++ [.recvRequest request] })) := by
  simp only [step, recvIncoming] at h
  split at h
  · cases h
  · rename_i request rest hin
    rw [hpc] at h
    simp only [] at h
    split at h
    · rename_i hn
      cases h
      exact ⟨request, rest, hin, Or.inl ⟨hn, rfl⟩⟩
    · rename_i hn
      cases h
      exact ⟨request, rest, hin, Or.inr ⟨not_not.mp hn, by rw [hpc]⟩⟩

/-- What the send of a request does in the closing loop. -/
theorem closing_send_spec {s s1 : State} {request : RunRequest} {i : Nat}
    (hpc : s.pc = .closingSend request) (h : step s (.deliver i) = some s1) :
    ∃ rn rn1, s.runners.get? i = some rn ∧ rn.requests = s.queue ∧
      rn.recv request = some rn1 ∧
      s1 = { s with runners := s.runners.set i rn1, pc := .closing,
                    log := s.log ++ [.sendQueue s.queue request] } := by
  simp only [step, deliver] at h
  split at h
  · cases h
  · rename_i rn hrn
    split at h
    · rename_i hreq
      rw [hpc] at h
      simp only [] at h
      split at h
      · cases h
      · rename_i rn1 hrecv
        cases h
        exact ⟨rn, rn1, hrn, hreq, hrecv, rfl⟩
    · cases h

/-- What the send of the close marker does. -/
theorem handoff_spec {s s1 : State} {i : Nat}
    (hpc : s.pc = .handoff) (h : step s (.deliver i) = some s1) :
    ∃ rn rn1, s.runners.get? i = some rn ∧ rn.requests = s.queue ∧
      rn.recv closeMarker = some rn1 ∧
      s1 = { s with
        runners := s.runners.set i rn1 ++
          [PuppetRunner s.queuesMade ((s.runNum + 1) % 2 ^ 64)]
        queue := s.queuesMade
        queuesMade := s.queuesMade + 1
        runNum := (s.runNum + 1) % 2 ^ 64
        pc := .collect
        log := s.log ++ [.sendQueue s.queue closeMarker, .makeQueue s.queuesMade,
          .setRunNum ((s.runNum + 1) % 2 ^ 64),
          .goRunner s.queuesMade ((s.runNum + 1) % 2 ^ 64)] } := by
  simp only [step, deliver] at h
  split at h
  · cases h
  · rename_i rn hrn
    split at h
    · rename_i hreq
      rw [hpc] at h
      simp only [] at h
      split at h
      · cases h
      · rename_i rn1 hrecv
        cases h
        exact ⟨rn, rn1, hrn, hreq, hrecv, rfl⟩
    · cases h

/-- The send of the close marker is enabled when the runner of the active
queue is at its receive. -/
theorem handoff_enabled {s : State} {i : Nat} {rn : Runner} (hpc : s.pc = .handoff)
    (hget : s.runners.get? i = some rn) (hid : rn.requests = s.queue)
    (hph : rn.phase = .collecting) : (step s (.deliver i)).isSome = true := by
  have hrecv : rn.recv closeMarker =
      some { rn with phase := .running, received := rn.received ++ [closeMarker] } := by
    simp only [Runner.recv, hph, durMul_zero_Second, closeMarker_Delay]
    rfl
  simp only [step, deliver, hget, hid, hpc, if_true, hrecv]
  rfl

/-- The closing hand-off, step by step.  In every state of an execution, while
fewer than 2^64 runners have been started, with `N` the active run number and
`q` the active queue:
the receive of the token happens in the closing loop and leaves the scheduler
at the send of the close marker;
from there its only step is the send of the close marker on `q`, received by
runner `N`, followed in this order by: a fresh channel becomes `queue`,
`runNum` becomes `N + 1`, `PuppetRunner(queue, N + 1)` is started; then the
scheduler is back at the `select` of the collecting loop; no timer is started;
when all submitted delays are at least zero this send is enabled;
a request received in the closing loop starts no timer, and is sent on `q`,
to runner `N`, exactly when its `Notify` is not nil;
on no channel does anything follow the close marker. -/
theorem closing_handoff (ls : List Label) (s : State) (h : run init ls = some s)
    (hwrap : s.runners.length < 2 ^ 64) :
    (∀ s1, step s .takeToken = some s1 →
      s.pc = .closing ∧
      s1 = { s with readyToRun := s.readyToRun - 1, pc := .handoff,
                    log := s.log ++ [.recvToken] }) ∧
    (s.pc = .handoff →
      step s .seed = none ∧ step s .recvIncoming = none ∧ step s .takeToken = none ∧
      (∀ j, step s (.report j) = none) ∧
      (∀ i s1, step s (.deliver i) = some s1 →
        i = s.runNum ∧ s.queue = s.runNum ∧
        ∃ rn rn1, s.runners.get? i = some rn ∧ rn.recv closeMarker = some rn1 ∧
          s1.queue = s.queuesMade ∧ (∀ r ∈ s.runners, r.requests ≠ s1.queue) ∧
          s1.runNum = s.runNum + 1 ∧
          s1.runners = s.runners.set i rn1 ++ [PuppetRunner s1.queue s1.runNum] ∧
          s1.pc = .collect ∧ s1.timers = s.timers ∧
          s1.log = s.log ++ [.sendQueue s.queue closeMarker, .makeQueue s1.queue,
            .setRunNum s1.runNum, .goRunner s1.queue s1.runNum]) ∧
      ((∀ l ∈ ls, l.delayOK = true) → (step s (.deliver s.runNum)).isSome = true)) ∧
    (s.pc = .closing → ∀ s1, step s .recvIncoming = some s1 →
      ∃ request rest, s.incoming = request :: rest ∧ s1.timers = s.timers ∧
        s1.runners = s.runners ∧ s1.queue = s.queue ∧ s1.runNum = s.runNum ∧
        ((request.Notify ≠ none ∧ s1.pc = .closingSend request) ∨
         (request.Notify = none ∧ s1.pc = .closing))) ∧
    (∀ request, s.pc = .closingSend request → ∀ i s1, step s (.deliver i) = some s1 →
      i = s.runNum ∧ s.queue = s.runNum ∧
      ∃ rn rn1, s.runners.get? i = some rn ∧ rn.recv request = some rn1 ∧
        s1 = { s with runners := s.runners.set i rn1, pc := .closing,
                      log := s.log ++ [.sendQueue s.queue request] }) ∧
    (∀ r ∈ s.runners, closeMarker ∉ r.received.dropLast) := by
  have sinv := schedInv_run schedInv_init h
  have hnq : s.pc ≠ .init → s.runNum = s.queue := by
    intro hpc
    have hq := sinv.queue hpc
    rw [sinv.runNum hpc]
    exact Nat.mod_eq_of_lt (by omega)
  have hidx : ∀ i rn, s.pc ≠ .init → s.runners.get? i = some rn → rn.requests = s.queue →
      i = s.runNum := by
    intro i rn hpc hrn hreq
    rw [hnq hpc, ← hreq]
    exact ((sinv.ids i rn hrn).1).symm
  refine ⟨?_, ?_, ?_, ?_, ?_⟩
  · intro s1 hs
    obtain ⟨h1, -, h3⟩ := takeToken_spec hs
    exact ⟨h1, h3⟩
  · intro hpc
    have hne : s.pc ≠ .init := by rw [hpc]; simp
    have hq := sinv.queue hne
    refine ⟨?_, ?_, ?_, ?_, ?_, ?_⟩
    · simp [step, seedStep, hpc]
    · simp only [step, recvIncoming, hpc]
      split <;> rfl
    · simp [step, takeToken, hpc]
    · intro j
      simp [step, report, hpc]
    · intro i s1 hs
      obtain ⟨rn, rn1, hrn, hreq, hrecv, hs1⟩ := handoff_spec hpc hs
      have hi := hidx i rn hne hrn hreq
      have hmod : (s.runNum + 1) % 2 ^ 64 = s.runNum + 1 :=
        Nat.mod_eq_of_lt (by rw [hnq hne]; omega)
      refine ⟨hi, (hnq hne).symm, rn, rn1, hrn, hrecv, ?_, ?_, ?_, ?_, ?_, ?_, ?_⟩
      · rw [hs1]
      · intro r hr
        rw [hs1]
        simp only []
        obtain ⟨k, hk, hkr⟩ := List.getElem_of_mem hr
        have hget : s.runners.get? k = some r := by
          rw [List.get?_eq_getElem?, List.getElem?_eq_getElem hk, hkr]
        rw [(sinv.ids k r hget).1, sinv.made]
        omega
      · rw [hs1]
        exact hmod
      · rw [hs1]
      · rw [hs1]
      · rw [hs1]
      · rw [hs1]
    · intro hl
      have tinv := tokenInv_run tokenInv_init hl h
      have hlt : s.runNum < s.runners.length := by rw [hnq hne]; omega
      have hget : s.runners.get? s.runNum = some s.runners[s.runNum] := by
        rw [List.get?_eq_getElem?, List.getElem?_eq_getElem hlt]
      have hid := (sinv.ids _ _ hget).1
      have hnot : closeMarker ∉ (s.runners[s.runNum]).received := by
        intro hc
        have := ((sinv.marker _ _ hget).2).mp hc
        rw [hnq hne] at this
        omega
      have hph := (tinv.runner_ok _ (mem_of_get? hget)).mpr hnot
      exact handoff_enabled hpc hget (by rw [hid, hnq hne]) hph
  · intro hpc s1 hs
    obtain ⟨request, rest, hin, hcase⟩ := closing_recv_spec hpc hs
    refine ⟨request, rest, hin, ?_⟩
    rcases hcase with ⟨hn, hs1⟩ | ⟨hn, hs1⟩
    · rw [hs1]
      exact ⟨rfl, rfl, rfl, rfl, Or.inl ⟨hn, rfl⟩⟩
    · rw [hs1]
      exact ⟨rfl, rfl, rfl, rfl, Or.inr ⟨hn, hpc⟩⟩
  · intro request hpc i s1 hs
    have hne : s.pc ≠ .init := by rw [hpc]; simp
    obtain ⟨rn, rn1, hrn, hreq, hrecv, hs1⟩ := closing_send_spec hpc hs
    exact ⟨hidx i rn hne hrn hreq, (hnq hne).symm, rn, rn1, hrn, hrecv, hs1⟩
  · intro r hr
    obtain ⟨k, hk, hkr⟩ := List.getElem_of_mem hr
    have hget : s.runners.get? k = some r := by
      rw [List.get?_eq_getElem?, List.getElem?_eq_getElem hk, hkr]
    exact (sinv.marker k r hget).1

theorem closing_handoff_witness :
    run init runToHandoff = some atHandoff ∧ atHandoff.runners.length < 2 ^ 64 ∧
    atHandoff.pc = .handoff ∧ (∀ l ∈ runToHandoff, l.delayOK = true) ∧
    (step atHandoff (.deliver atHandoff.runNum)).isSome = true :=
  ⟨by decide, by decide, by decide, by decide,
    ((closing_handoff runToHandoff atHandoff (by decide) (by decide)).2.1
      (by decide)).2.2.2.2.2 (by decide)⟩

/-! ## Delays the gateway lets through -/

theorem wedged_step {s s1 : State} {l : Label} (hw : Wedged s) (h : step s l = some s1) :
    Wedged s1 := by
  obtain ⟨hpc, hq, ht, hsent, r, hr, hph⟩ := hw
  cases l with
  | async u =>
    simp only [step, AsyncHandler] at h
    split at h
    · cases h
      exact ⟨hpc, hq, ht, hsent, r, hr, hph⟩
    · split at h <;> cases h
      exact ⟨hpc, hq, ht, hsent, r, hr, hph⟩
  | sync u =>
    simp only [step, SyncHandler] at h
    split at h
    · cases h
      exact ⟨hpc, hq, ht, hsent, r, hr, hph⟩
    · split at h <;> cases h
      refine ⟨hpc, hq, ht, ?_, r, hr, hph⟩
      have hlt := get?_lt hsent
      rw [List.get?_eq_getElem?] at hsent ⊢
      simp only []
      rw [List.getElem?_append_left hlt]
      exact hsent
  | handlerRecv c =>
    simp only [step, handlerRecv] at h
    split at h <;> cases h
    exact ⟨hpc, hq, ht, hsent, r, hr, hph⟩
  | seed => simp [step, seedStep, hpc] at h
  | recvIncoming =>
    simp only [step, recvIncoming, hpc] at h
    split at h <;> cases h
  | deliver i =>
    simp only [step, deliver, hr, hpc] at h
    cases i with
    | zero =>
      simp only [List.get?_cons_zero, Runner.recv, hph] at h
      split at h <;> cases h
    | succ k => simp at h
  | timerFire j => simp [step, timerFire, ht] at h
  | report j => simp [step, report, hpc] at h
  | takeToken => simp [step, takeToken, hpc] at h
  | runner i =>
    simp only [step, runnerStep, hr] at h
    cases i with
    | zero => simp [Runner.next, hph] at h
    | succ k => simp at h

theorem wedged_run {ls : List Label} {s s1 : State} (hw : Wedged s)
    (h : run s ls = some s1) : Wedged s1 := by
  induction ls generalizing s with
  | nil =>
    simp only [run, Option.some.injEq] at h
    subst h
    exact hw
  | cons l ls ih =>
    simp only [run] at h
    split at h
    · cases h
    · rename_i s2 hs
      exact ih (wedged_step hw hs) h

/-- C2, failing input.  For the URL with query `delay=-1`, `parseClientArgs`
returns a nil error and the delay -1s, and `SyncHandler` and `AsyncHandler`
put a request with this negative delay on `incoming`. -/
theorem gateway_accepts_negative_delay :
    parseClientArgs (delayURL "-1") = .ok ⟨-1000000000⟩ ∧
    (run init [.seed, .sync (delayURL "-1")]).map (·.incoming) =
      some [⟨-1000000000, some 0⟩] ∧
    (run init [.seed, .async (delayURL "-1")]).map (·.incoming) =
      some [⟨-1000000000, none⟩] :=
  ⟨rfl, by decide, by decide⟩

/-- C3, failing input.  The request of `/sync?delay=-1` is taken from
`incoming` while the active run number is 0 and is sent on the queue of run 0;
runner 0 reads it as the sentinel: it leaves its loop with no waiter and
starts its action although no close marker was sent.  The execution can go on
until the scheduler stands at the send of the close marker on queue 0 after
runner 0 has returned; from there on, whatever happens, the scheduler stays
at that send, and nothing is ever sent on the `Notify` channel of the
request. -/
theorem negative_delay_never_notified :
    (run init runToSentinel).map (·.runners) =
      some [⟨0, 0, [], .running, [⟨-1000000000, some 0⟩]⟩] ∧
    run init runToWedge = some atWedge ∧
    ∀ ls s, run atWedge ls = some s → s.pc = .handoff ∧ s.sent.get? 0 = some 0 := by
  refine ⟨by decide, by decide, ?_⟩
  intro ls s h
  have hw : Wedged atWedge := by
    refine ⟨rfl, rfl, rfl, rfl, _, rfl, rfl⟩
  obtain ⟨h1, -, -, h4, -⟩ := wedged_run hw h
  exact ⟨h1, h4⟩

/-- In a wedged state the scheduler, the runner and the timers have no step. -/
theorem wedged_disabled {s : State} (hw : Wedged s) :
    step s .seed = none ∧ step s .recvIncoming = none ∧ step s .takeToken = none ∧
    (∀ i, step s (.deliver i) = none) ∧ (∀ i, step s (.runner i) = none) ∧
    (∀ j, step s (.timerFire j) = none) ∧ (∀ j, step s (.report j) = none) := by
  obtain ⟨hpc, hq, ht, hsent, r, hr, hph⟩ := hw
  refine ⟨?_, ?_, ?_, ?_, ?_, ?_, ?_⟩
  · simp [step, seedStep, hpc]
  · simp only [step, recvIncoming, hpc]
    split <;> rfl
  · simp [step, takeToken, hpc]
  · intro i
    cases i with
    | zero =>
      simp only [step, deliver, hr, hpc, List.get?_cons_zero, Runner.recv, hph]
      split <;> rfl
    | succ k => simp [step, deliver, hr]
  · intro i
    cases i with
    | zero => simp [step, runnerStep, hr, Runner.next, hph]
    | succ k => simp [step, runnerStep, hr]
  · intro j
    simp [step, timerFire, ht]
  · intro j
    simp [step, report, hpc]

/-- A step from a wedged state leaves `runNum` and the runners as they are. -/
theorem wedged_frame {s s1 : State} {l : Label} (hw : Wedged s) (h : step s l = some s1) :
    s1.runNum = s.runNum ∧ s1.runners = s.runners := by
  obtain ⟨h1, h2, h3, h4, h5, h6, h7⟩ := wedged_disabled hw
  cases l with
  | async u =>
    refine ⟨?_, handler_runners h⟩
    rcases runNum_step h with he | ⟨hl, -⟩ | ⟨i, rn, rn1, hl, -⟩
    · exact he
    · cases hl
    · cases hl
  | sync u =>
    refine ⟨?_, handler_runners h⟩
    rcases runNum_step h with he | ⟨hl, -⟩ | ⟨i, rn, rn1, hl, -⟩
    · exact he
    · cases hl
    · cases hl
  | handlerRecv c =>
    refine ⟨?_, handlerRecv_runners h⟩
    rcases runNum_step h with he | ⟨hl, -⟩ | ⟨i, rn, rn1, hl, -⟩
    · exact he
    · cases hl
    · cases hl
  | seed => rw [h1] at h; cases h
  | recvIncoming => rw [h2] at h; cases h
  | deliver i => rw [h4 i] at h; cases h
  | timerFire j => rw [h6 j] at h; cases h
  | report j => rw [h7 j] at h; cases h
  | takeToken => rw [h3] at h; cases h
  | runner i => rw [h5 i] at h; cases h

theorem wedged_frame_run {ls : List Label} {s s1 : State} (hw : Wedged s)
    (h : run s ls = some s1) : s1.runNum = s.runNum ∧ s1.runners = s.runners := by
  induction ls generalizing s with
  | nil =>
    simp only [run, Option.some.injEq] at h
    subst h
    exact ⟨rfl, rfl⟩
  | cons l ls ih =>
    simp only [run] at h
    split at h
    · cases h
    · rename_i s2 hs
      obtain ⟨e1, e2⟩ := wedged_frame hw hs
      obtain ⟨e3, e4⟩ := ih (wedged_step hw hs) h
      exact ⟨by rw [e3, e1], by rw [e4, e2]⟩

/-- C9, failing input.  After the request of `/sync?delay=-1`, which runner 0
took for the sentinel, the scheduler enters the closing loop with run number
0 and receives the token (line 139); the last operation in its history is
that receive.  The send of the close marker on queue 0 (line 142) is then
enabled for no runner, and it stays so whatever happens afterwards: the
scheduler remains at line 142, `runNum` remains 0, runner 0 is never sent the
close marker and no second runner is started. -/
theorem handoff_blocks_after_negative_delay :
    run init runToWedge = some atWedge ∧
    atWedge.log.getLast? = some SEvent.recvToken ∧
    ∀ ls s, run atWedge ls = some s →
      s.pc = .handoff ∧ s.runNum = 0 ∧ (∀ i, step s (.deliver i) = none) ∧
      s.runners = [⟨0, 0, [], .done, [⟨-1000000000, some 0⟩]⟩] := by
  refine ⟨by decide, by decide, ?_⟩
  intro ls s h
  have hw : Wedged atWedge := by
    refine ⟨rfl, rfl, rfl, rfl, _, rfl, rfl⟩
  have hws := wedged_run hw h
  obtain ⟨e1, e2⟩ := wedged_frame_run hw h
  exact ⟨hws.1, e1, (wedged_disabled hws).2.2.2.1, e2⟩

/-- A request the scheduler is sending on `queue` is received: when all
submitted delays are at least zero, the send of lines 119 and 137 is enabled,
the runner of the active queue being at its receive. -/
theorem pending_send_enabled (ls : List Label) (s : State)
    (hl : ∀ l ∈ ls, l.delayOK = true) (h : run init ls = some s) (request : RunRequest)
    (hpend : s.pc.pending = some request) : (step s (.deliver s.queue)).isSome = true := by
  have tinv := tokenInv_run tokenInv_init hl h
  have sinv := schedInv_run schedInv_init h
  have hne : s.pc ≠ .init := by
    intro hc
    rw [hc] at hpend
    simp [SPhase.pending] at hpend
  have hq := sinv.queue hne
  have hlt : s.queue < s.runners.length := by omega
  have hget : s.runners.get? s.queue = some s.runners[s.queue] := by
    rw [List.get?_eq_getElem?, List.getElem?_eq_getElem hlt]
  have hid := (sinv.ids _ _ hget).1
  have hnot : closeMarker ∉ (s.runners[s.queue]).received := by
    intro hc
    have := ((sinv.marker _ _ hget).2).mp hc
    omega
  have hph := (tinv.runner_ok _ (mem_of_get? hget)).mpr hnot
  have hd : 0 ≤ request.Delay := tinv.pending_nonneg request hpend
  have hrecv : ((s.runners[s.queue]).recv request).isSome = true := by
    simp only [Runner.recv, hph, durMul_zero_Second]
    rw [if_neg (by omega)]
    split <;> rfl
  obtain ⟨rn1, hrn1⟩ := Option.isSome_iff_exists.mp hrecv
  cases hpc : s.pc with
  | init => exact absurd hpc hne
  | collect => rw [hpc] at hpend; simp [SPhase.pending] at hpend
  | closing => rw [hpc] at hpend; simp [SPhase.pending] at hpend
  | handoff => rw [hpc] at hpend; simp [SPhase.pending] at hpend
  | collectSend r =>
    rw [hpc] at hpend
    simp only [SPhase.pending, Option.some.injEq] at hpend
    subst hpend
    simp only [step, deliver, hget, hid, hpc, if_true, hrn1]
    rfl
  | closingSend r =>
    rw [hpc] at hpend
    simp only [SPhase.pending, Option.some.injEq] at hpend
    subst hpend
    simp only [step, deliver, hget, hid, hpc, if_true, hrn1]
    rfl

/-- C10, failing input.  `strconv.Atoi` accepts `9223372037`, but the delay
`parseClientArgs` returns is not 9223372037 seconds: the int64 product wraps
around to a negative duration. -/
theorem delay_wraps_around :
    Atoi "9223372037" = some 9223372037 ∧
    parseClientArgs (delayURL "9223372037") = .ok ⟨-9223372036709551616⟩ ∧
    (-9223372036709551616 : Int) ≠ 9223372037 * 1000000000 :=
  ⟨by decide, rfl, by decide⟩

/-- The value `parseClientArgs` returns.  When `strconv.Atoi` accepts the
`delay` parameter as `n`, the error is nil and the delay is the int64 product
of `n` and 10^9, which is `n` seconds when `n` is between -9223372036 and
9223372036; when `strconv.Atoi` rejects the parameter (absent or malformed),
the error is "Could not find or parse args". -/
theorem parseClientArgs_value (u : URL) :
    (∀ n, Atoi (u.Get "delay") = some n →
      parseClientArgs u = .ok ⟨wrap64 (n * 1000000000)⟩ ∧
      (-9223372036 ≤ n → n ≤ 9223372036 → parseClientArgs u = .ok ⟨n * 1000000000⟩)) ∧
    (Atoi (u.Get "delay") = none →
      parseClientArgs u = .error "Could not find or parse args") := by
  constructor
  · intro n hn
    have h1 : parseClientArgs u = .ok ⟨wrap64 (n * 1000000000)⟩ := by
      simp only [parseClientArgs, hn, durMul, Second]
    refine ⟨h1, ?_⟩
    intro hlo hhi
    rw [h1]
    have : wrap64 (n * 1000000000) = n * 1000000000 := by
      unfold wrap64
      omega
    rw [this]
  · intro hn
    simp only [parseClientArgs, hn]

/-! ## Notification -/

theorem allWaiters_append (l m : List Runner) :
    allWaiters (l ++ m) = allWaiters l ++ allWaiters m := by
  induction l with
  | nil => rfl
  | cons x xs ih => simp [allWaiters, ih]

theorem allWaiters_set_same {l : List Runner} {i : Nat} {rn rn1 : Runner}
    (hrn : l.get? i = some rn) (hw : rn1.waiters = rn.waiters) :
    allWaiters (l.set i rn1) = allWaiters l := by
  induction l generalizing i with
  | nil => simp at hrn
  | cons x xs ih =>
    cases i with
    | zero =>
      simp at hrn
      subst hrn
      simp [allWaiters, hw]
    | succ j =>
      simp only [List.get?_cons_succ] at hrn
      simp [allWaiters, ih hrn]

theorem allWaiters_set_last {l : List Runner} {i : Nat} {rn rn1 : Runner} {extra : List Nat}
    (hrn : l.get? i = some rn) (hlast : i + 1 = l.length)
    (hw : rn1.waiters = rn.waiters ++ extra) :
    allWaiters (l.set i rn1) = allWaiters l ++ extra := by
  induction l generalizing i with
  | nil => simp at hrn
  | cons x xs ih =>
    cases i with
    | zero =>
      simp at hrn
      subst hrn
      have hxs : xs = [] := by
        simp only [List.length_cons] at hlast
        exact List.eq_nil_of_length_eq_zero (by omega)
      subst hxs
      simp [allWaiters, hw]
    | succ j =>
      simp only [List.get?_cons_succ] at hrn
      simp only [List.length_cons] at hlast
      simp [allWaiters, ih hrn (by omega)]

theorem mem_allWaiters {l : List Runner} {c : Nat} :
    c ∈ allWaiters l ↔ ∃ i r k, l.get? i = some r ∧ r.waiters.get? k = some c := by
  induction l with
  | nil => simp [allWaiters]
  | cons x xs ih =>
    simp only [allWaiters, List.mem_append, ih]
    constructor
    · rintro (h | ⟨i, r, k, h1, h2⟩)
      · obtain ⟨k, hk⟩ := List.mem_iff_get?.mp h
        exact ⟨0, x, k, rfl, hk⟩
      · exact ⟨i + 1, r, k, h1, h2⟩
    · rintro ⟨i, r, k, h1, h2⟩
      cases i with
      | zero =>
        simp at h1
        subst h1
        exact Or.inl (List.mem_iff_get?.mpr ⟨k, h2⟩)
      | succ j => exact Or.inr ⟨j, r, k, h1, h2⟩

theorem nodup_get?_inj {l : List Nat} (hnd : l.Nodup) {j k c : Nat}
    (hj : l.get? j = some c) (hk : l.get? k = some c) : j = k := by
  rw [List.get?_eq_some] at hj hk
  obtain ⟨hj1, hj2⟩ := hj
  obtain ⟨hk1, hk2⟩ := hk
  have := (List.Nodup.get_inj_iff hnd (i := ⟨j, hj1⟩) (j := ⟨k, hk1⟩)).mp (by rw [hj2, hk2])
  simpa using this

theorem allWaiters_nodup_inj {l : List Runner} (hnd : (allWaiters l).Nodup)
    {i i2 k k2 c : Nat} {r r2 : Runner}
    (h1 : l.get? i = some r) (h2 : r.waiters.get? k = some c)
    (h3 : l.get? i2 = some r2) (h4 : r2.waiters.get? k2 = some c) : i = i2 ∧ k = k2 := by
  induction l generalizing i i2 with
  | nil => simp at h1
  | cons x xs ih =>
    simp only [allWaiters] at hnd
    rw [List.nodup_append] at hnd
    obtain ⟨hx, hxs, hdis⟩ := hnd
    cases i with
    | zero =>
      simp at h1
      subst h1
      cases i2 with
      | zero =>
        simp at h3
        subst h3
        exact ⟨rfl, nodup_get?_inj hx h2 h4⟩
      | succ j2 =>
        simp only [List.get?_cons_succ] at h3
        exact absurd (mem_allWaiters.mpr ⟨j2, r2, k2, h3, h4⟩)
          (hdis (List.mem_iff_get?.mpr ⟨k, h2⟩))
    | succ j =>
      simp only [List.get?_cons_succ] at h1
      cases i2 with
      | zero =>
        simp at h3
        subst h3
        exact absurd (mem_allWaiters.mpr ⟨j, r, k, h1, h2⟩)
          (hdis (List.mem_iff_get?.mpr ⟨k2, h4⟩))
      | succ j2 =>
        simp only [List.get?_cons_succ] at h3
        obtain ⟨e1, e2⟩ := ih hxs h1 h3
        exact ⟨by omega, e2⟩

theorem get?_append_cases {l m : List Nat} {k c : Nat} (h : (l ++ m).get? k = some c) :
    l.get? k = some c ∨ (l.length ≤ k ∧ c ∈ m) := by
  by_cases hk : k < l.length
  · left
    rw [List.get?_eq_getElem?] at h ⊢
    rw [List.getElem?_append_left hk] at h
    exact h
  · right
    refine ⟨by omega, ?_⟩
    rw [List.get?_eq_getElem?, List.getElem?_append_right (by omega)] at h
    exact List.mem_iff_get?.mpr ⟨k - l.length, by rw [List.get?_eq_getElem?]; exact h⟩

theorem Runner.next_cases {rn rn1 : Runner} {e : Effect} (h : rn.next = some (e, rn1)) :
    (rn.phase = .running ∧ e = .action ∧ rn1 = { rn with phase := .notifying 0 }) ∨
    (∃ j c, rn.phase = .notifying j ∧ rn.waiters.get? j = some c ∧ e = .signal c ∧
      rn1 = { rn with phase := .notifying (j + 1) }) ∨
    (∃ j, rn.phase = .notifying j ∧ rn.waiters.get? j = none ∧ e = .token ∧
      rn1 = { rn with phase := .done }) := by
  unfold Runner.next at h
  split at h
  · cases h
  · rename_i hph
    cases h
    exact Or.inl ⟨hph, rfl, rfl⟩
  · rename_i j hph
    split at h
    · rename_i c hc
      cases h
      exact Or.inr (Or.inl ⟨j, c, hph, hc, rfl, rfl⟩)
    · rename_i hc
      cases h
      exact Or.inr (Or.inr ⟨j, hph, hc, rfl, rfl⟩)
  · cases h

theorem notifyInv_init : NotifyInv init := by
  constructor <;> simp [init, allWaiters, State.waitingChans, SPhase.pendingChans, SPhase.pending]

theorem get?_snoc_zero {l : List Nat} {c v : Nat} (h : l.get? c = some v) :
    (l ++ [0]).get? c = some v := by
  have hlt := get?_lt h
  rw [List.get?_eq_getElem?] at h ⊢
  rw [List.getElem?_append_left hlt]
  exact h

theorem notifyInv_async {s s1 : State} {u : URL} (inv : NotifyInv s)
    (h : AsyncHandler s u = some s1) : NotifyInv s1 := by
  unfold AsyncHandler at h
  split at h
  · cases h
    exact inv
  · split at h
    · cases h
      have hw : ∀ d : Int, State.waitingChans
          { s with incoming := s.incoming ++ [⟨d, none⟩] } = s.waitingChans := by
        intro d
        simp [State.waitingChans, List.filterMap_append]
      refine ⟨inv.len, ?_, inv.held, ?_⟩
      · rw [hw]
        exact inv.chans
      · rw [hw]
        exact inv.waiting
    · cases h

theorem notifyInv_sync {s s1 : State} {u : URL} (inv : NotifyInv s)
    (h : SyncHandler s u = some s1) : NotifyInv s1 := by
  unfold SyncHandler at h
  split at h
  · cases h
    exact inv
  · split at h
    · cases h
      have hw : ∀ d : Int, State.waitingChans
          { s with notify := s.notify ++ [0], sent := s.sent ++ [0],
                   incoming := s.incoming ++ [⟨d, some s.notify.length⟩] } =
          s.waitingChans ++ [s.notify.length] := by
        intro d
        simp [State.waitingChans, List.filterMap_append]
      refine ⟨?_, ?_, ?_, ?_⟩
      · simp [inv.len]
      · rw [hw, ← List.append_assoc, inv.chans]
        simp [List.range_succ]
      · intro i r k c hr hk
        exact get?_snoc_zero (inv.held i r k c hr hk)
      · intro c hc
        rw [hw] at hc
        simp only [List.mem_append, List.mem_singleton] at hc
        rcases hc with hc | hc
        · exact get?_snoc_zero (inv.waiting c hc)
        · subst hc
          simp only [List.get?_eq_getElem?]
          rw [List.getElem?_append_right (by rw [inv.len])]
          simp [inv.len]
    · cases h

theorem notifyInv_handlerRecv {s s1 : State} {c : Nat} (inv : NotifyInv s)
    (h : handlerRecv s c = some s1) : NotifyInv s1 := by
  unfold handlerRecv at h
  split at h
  · cases h
    refine ⟨?_, ?_, inv.held, inv.waiting⟩
    · simp [inv.len]
    · have := inv.chans
      simpa [State.waitingChans] using this
  · cases h

theorem notifyInv_seed {s s1 : State} (sinv : SchedInv s) (inv : NotifyInv s)
    (h : seedStep s = some s1) : NotifyInv s1 := by
  unfold seedStep at h
  split at h
  · rename_i hpc
    split at h
    · cases h
      have hr := (sinv.fresh hpc).1
      have hw : State.waitingChans
          { s with readyToRun := s.readyToRun + 1, queue := s.queuesMade,
                   queuesMade := s.queuesMade + 1, runNum := 0,
                   runners := s.runners ++ [PuppetRunner s.queuesMade 0], pc := .collect,
                   log := s.log ++ [.seedToken, .makeQueue s.queuesMade,
                     .goRunner s.queuesMade 0] } = s.waitingChans := by
        simp [State.waitingChans, SPhase.pendingChans, SPhase.pending, hpc]
      refine ⟨inv.len, ?_, ?_, ?_⟩
      · rw [hw]
        have := inv.chans
        simpa [allWaiters_append, allWaiters, PuppetRunner] using this
      · intro i r k c hir hk
        simp only [hr, List.nil_append] at hir
        cases i with
        | zero =>
          simp at hir
          subst hir
          simp [PuppetRunner] at hk
        | succ j => simp at hir
      · rw [hw]
        exact inv.waiting
    · cases h
  · cases h

theorem notifyInv_frame {s s1 : State} (inv : NotifyInv s)
    (h1 : s1.runners = s.runners) (h2 : s1.notify = s.notify) (h3 : s1.sent = s.sent)
    (h4 : s1.waitingChans = s.waitingChans) : NotifyInv s1 := by
  refine ⟨?_, ?_, ?_, ?_⟩
  · rw [h2, h3]
    exact inv.len
  · rw [h1, h2, h4]
    exact inv.chans
  · rw [h1, h3]
    exact inv.held
  · rw [h3, h4]
    exact inv.waiting

theorem notifyInv_recvIncoming {s s1 : State} (inv : NotifyInv s)
    (h : recvIncoming s = some s1) : NotifyInv s1 := by
  unfold recvIncoming at h
  split at h
  · cases h
  · rename_i request rest hin
    split at h
    · rename_i hpc
      split at h
      · rename_i hn
        cases h
        refine notifyInv_frame inv rfl rfl rfl ?_
        obtain ⟨c, hc⟩ := Option.ne_none_iff_exists'.mp hn
        simp [State.waitingChans, SPhase.pendingChans, SPhase.pending, hpc, hin, hc]
      · rename_i hn
        cases h
        refine notifyInv_frame inv rfl rfl rfl ?_
        simp only [ne_eq, not_not] at hn
        simp [State.waitingChans, SPhase.pendingChans, SPhase.pending, hpc, hin, hn]
    · rename_i hpc
      split at h
      · rename_i hn
        cases h
        refine notifyInv_frame inv rfl rfl rfl ?_
        obtain ⟨c, hc⟩ := Option.ne_none_iff_exists'.mp hn
        simp [State.waitingChans, SPhase.pendingChans, SPhase.pending, hpc, hin, hc]
      · rename_i hn
        cases h
        refine notifyInv_frame inv rfl rfl rfl ?_
        simp only [ne_eq, not_not] at hn
        simp [State.waitingChans, SPhase.pendingChans, SPhase.pending, hpc, hin, hn]
    · cases h

theorem notifyInv_timerFire {s s1 : State} {j : Nat} (inv : NotifyInv s)
    (h : timerFire s j = some s1) : NotifyInv s1 := by
  unfold timerFire at h
  split at h
  · split at h
    · cases h
    · cases h
      exact notifyInv_frame inv rfl rfl rfl rfl
  · cases h

theorem notifyInv_report {s s1 : State} {j : Nat} (inv : NotifyInv s)
    (h : report s j = some s1) : NotifyInv s1 := by
  unfold report at h
  split at h
  · rename_i hpc
    split at h
    · split at h
      · split at h
        · cases h
          exact notifyInv_frame inv rfl rfl rfl rfl
        · cases h
          refine notifyInv_frame inv rfl rfl rfl ?_
          simp [State.waitingChans, SPhase.pendingChans, SPhase.pending, hpc]
      · cases h
    · cases h
  · cases h

theorem notifyInv_takeToken {s s1 : State} (inv : NotifyInv s)
    (h : takeToken s = some s1) : NotifyInv s1 := by
  unfold takeToken at h
  split at h
  · rename_i hpc
    split at h
    · cases h
      refine notifyInv_frame inv rfl rfl rfl ?_
      simp [State.waitingChans, SPhase.pendingChans, SPhase.pending, hpc]
    · cases h
  · cases h

theorem Runner.signaled_collecting {r : Runner} (h : r.phase = .collecting) (k : Nat) :
    r.signaled k = false := by
  simp [Runner.signaled, h]

theorem notifyInv_deliver_req {s : State} {i : Nat} {rn rn1 : Runner} {request : RunRequest}
    {pc1 : SPhase} {timers1 : List Timer} {log1 : List SEvent}
    (tinv : TokenInv s) (sinv : SchedInv s) (inv : NotifyInv s)
    (hpend : s.pc.pending = some request) (hpc1 : pc1.pending = none)
    (hrn : s.runners.get? i = some rn) (hreq : rn.requests = s.queue)
    (hrecv : rn.recv request = some rn1) :
    NotifyInv { s with runners := s.runners.set i rn1, timers := timers1, pc := pc1,
                       log := log1 } := by
  have hne : s.pc ≠ .init := by
    intro hc
    rw [hc] at hpend
    simp [SPhase.pending] at hpend
  have hd : 0 ≤ request.Delay := tinv.pending_nonneg request hpend
  obtain ⟨h1, h2, -, h4, -, -⟩ := Runner.recv_nonneg hrecv hd
  have hlast : i + 1 = s.runners.length := by
    have hid := (sinv.ids i rn hrn).1
    have hq := sinv.queue hne
    omega
  have hwold : s.waitingChans = request.Notify.toList ++ s.incoming.filterMap (·.Notify) := by
    simp [State.waitingChans, SPhase.pendingChans, hpend]
  have hwnew : State.waitingChans
      { s with runners := s.runners.set i rn1, timers := timers1, pc := pc1, log := log1 } =
      s.incoming.filterMap (·.Notify) := by
    simp [State.waitingChans, SPhase.pendingChans, hpc1]
  refine ⟨inv.len, ?_, ?_, ?_⟩
  · rw [hwnew]
    simp only []
    rw [allWaiters_set_last hrn hlast h4, List.append_assoc, ← hwold]
    exact inv.chans
  · intro j r k c hj hk
    simp only [] at hj ⊢
    rcases get?_set_cases hj with ⟨hji, hr, -⟩ | ⟨-, hold⟩
    · subst hji
      subst hr
      rw [Runner.signaled_collecting h2]
      rw [h4] at hk
      rcases get?_append_cases hk with hk1 | ⟨-, hk1⟩
      · have := inv.held j rn k c hrn hk1
        rw [Runner.signaled_collecting h1] at this
        exact this
      · exact inv.waiting c (by rw [hwold]; exact List.mem_append_left _ hk1)
    · exact inv.held j r k c hold hk
  · intro c hc
    rw [hwnew] at hc
    exact inv.waiting c (by rw [hwold]; exact List.mem_append_right _ hc)

theorem notifyInv_deliver {s s1 : State} {i : Nat}
    (tinv : TokenInv s) (sinv : SchedInv s) (inv : NotifyInv s)
    (h : deliver s i = some s1) : NotifyInv s1 := by
  unfold deliver at h
  split at h
  · cases h
  · rename_i rn hrn
    split at h
    · rename_i hreq
      split at h
      · rename_i request hpc
        split at h
        · cases h
        · rename_i rn1 hrecv
          cases h
          exact notifyInv_deliver_req tinv sinv inv (by rw [hpc]; rfl) rfl hrn hreq hrecv
      · rename_i request hpc
        split at h
        · cases h
        · rename_i rn1 hrecv
          cases h
          exact notifyInv_deliver_req tinv sinv inv (by rw [hpc]; rfl) rfl hrn hreq hrecv
      · rename_i hpc
        split at h
        · cases h
        · rename_i rn1 hrecv
          cases h
          obtain ⟨h1, h2, -, h4, -, -⟩ := Runner.recv_closeMarker hrecv
          have hw : ∀ (q n m : Nat) (rs : List Runner) (lg : List SEvent),
              State.waitingChans
                { s with runners := rs, queue := q, queuesMade := m, runNum := n,
                         pc := .collect, log := lg } = s.waitingChans := by
            intro q n m rs lg
            simp [State.waitingChans, SPhase.pendingChans, SPhase.pending, hpc]
          refine ⟨inv.len, ?_, ?_, ?_⟩
          · rw [hw]
            simp only []
            rw [allWaiters_append, allWaiters_set_same hrn h4]
            simpa [allWaiters, PuppetRunner] using inv.chans
          · intro j r k c hj hk
            simp only [] at hj ⊢
            rcases get?_snoc_cases hj with ⟨-, hj1⟩ | ⟨-, hr⟩
            · rcases get?_set_cases hj1 with ⟨hji, hr, -⟩ | ⟨-, hold⟩
              · subst hji
                subst hr
                rw [h4] at hk
                have := inv.held j rn k c hrn hk
                rw [Runner.signaled_collecting h1] at this
                simp only [Runner.signaled, h2]
                exact this
              · exact inv.held j r k c hold hk
            · subst hr
              simp [PuppetRunner] at hk
          · rw [hw]
            exact inv.waiting
      · cases h
    · cases h

theorem notifyInv_runnerStep {s s1 : State} {i : Nat} (inv : NotifyInv s)
    (h : runnerStep s i = some s1) : NotifyInv s1 := by
  have hnd : (allWaiters s.runners ++ s.waitingChans).Nodup := by
    rw [inv.chans]
    exact List.nodup_range _
  rw [List.nodup_append] at hnd
  obtain ⟨hnd1, -, hdis⟩ := hnd
  have hw : ∀ (rs : List Runner) (nt st : List Nat) (rr : Nat),
      State.waitingChans { s with runners := rs, notify := nt, sent := st, readyToRun := rr } =
        s.waitingChans := by
    intro rs nt st rr
    rfl
  unfold runnerStep at h
  split at h
  · cases h
  · rename_i rn hrn
    split at h
    · cases h
    · rename_i rn1 hnext
      cases h
      rcases Runner.next_cases hnext with ⟨hph, -, hrn1⟩ | ⟨j, c, -, -, he, -⟩ | ⟨j, -, -, he, -⟩
      · have hwt : rn1.waiters = rn.waiters := by rw [hrn1]
        refine ⟨inv.len, ?_, ?_, inv.waiting⟩
        · simp only []
          rw [allWaiters_set_same hrn hwt]
          exact inv.chans
        · intro a r k c ha hk
          simp only [] at ha ⊢
          rcases get?_set_cases ha with ⟨hai, hr, -⟩ | ⟨-, hold⟩
          · subst hai
            subst hr
            rw [hwt] at hk
            have := inv.held a rn k c hrn hk
            simp only [Runner.signaled, hph] at this
            simp only [Runner.signaled, hrn1, Nat.not_lt_zero, decide_False]
            exact this
          · exact inv.held a r k c hold hk
      · cases he
      · cases he
    · rename_i c rn1 hnext
      split at h
      · rename_i v hnot hsent
        cases h
        rcases Runner.next_cases hnext with ⟨-, he, -⟩ | ⟨j, c1, hph, hj, he, hrn1⟩ |
          ⟨j, -, -, he, -⟩
        · cases he
        · cases he
          have hwt : rn1.waiters = rn.waiters := by rw [hrn1]
          have hold0 := inv.held i rn j c hrn hj
          simp only [Runner.signaled, hph, Nat.lt_irrefl, decide_False, Bool.false_eq_true,
            if_false] at hold0
          have hv : v = 0 := by
            rw [hold0] at hsent
            simp only [Option.some.injEq] at hsent
            exact hsent.symm
          subst hv
          have hclt : c < s.sent.length := get?_lt hold0
          have hother : ∀ c1, c1 ≠ c → (s.sent.set c (0 + 1)).get? c1 = s.sent.get? c1 := by
            intro c1 hc1
            simp only [List.get?_eq_getElem?]
            exact List.getElem?_set_ne (fun e => hc1 e.symm)
          refine ⟨?_, ?_, ?_, ?_⟩
          · simp [inv.len]
          · simp only [List.length_set]
            rw [hw, allWaiters_set_same hrn hwt]
            exact inv.chans
          · intro a r k c1 ha hk
            simp only [] at ha ⊢
            rcases get?_set_cases ha with ⟨hai, hr, -⟩ | ⟨hai, hold⟩
            · subst hai
              subst hr
              rw [hwt] at hk
              by_cases hkj : k = j
              · subst hkj
                rw [hj] at hk
                simp only [Option.some.injEq] at hk
                subst hk
                simp only [Runner.signaled, hrn1, Nat.lt_succ_self, decide_True, if_true,
                  List.get?_eq_getElem?]
                exact List.getElem?_set_self hclt
              · have hne : c1 ≠ c := by
                  intro e
                  subst e
                  exact hkj (allWaiters_nodup_inj hnd1 hrn hk hrn hj).2
                rw [hother c1 hne]
                have := inv.held a rn k c1 hrn hk
                simp only [Runner.signaled, hph] at this
                simp only [Runner.signaled, hrn1]
                rw [this]
                have hiff : decide (k < j) = decide (k < j + 1) := by
                  apply decide_eq_decide.mpr
                  omega
                rw [hiff]
            · have hne : c1 ≠ c := by
                intro e
                subst e
                exact hai (allWaiters_nodup_inj hnd1 hold hk hrn hj).1
              rw [hother c1 hne]
              exact inv.held a r k c1 hold hk
          · intro c1 hc1
            rw [hw] at hc1
            have hne : c1 ≠ c := by
              intro e
              subst e
              exact hdis (mem_allWaiters.mpr ⟨i, rn, j, hrn, hj⟩) hc1
            simp only []
            rw [hother c1 hne]
            exact inv.waiting c1 hc1
        · cases he
      · cases h
    · rename_i rn1 hnext
      split at h
      · cases h
        rcases Runner.next_cases hnext with ⟨-, he, -⟩ | ⟨j, c1, -, -, he, -⟩ |
          ⟨j, hph, hj, -, hrn1⟩
        · cases he
        · cases he
        · have hwt : rn1.waiters = rn.waiters := by rw [hrn1]
          refine ⟨inv.len, ?_, ?_, inv.waiting⟩
          · simp only []
            rw [hw, allWaiters_set_same hrn hwt]
            exact inv.chans
          · intro a r k c ha hk
            simp only [] at ha ⊢
            rcases get?_set_cases ha with ⟨hai, hr, -⟩ | ⟨-, hold⟩
            · subst hai
              subst hr
              rw [hwt] at hk
              have := inv.held a rn k c hrn hk
              have hlen : rn.waiters.length ≤ j := by
                rw [List.get?_eq_none] at hj
                exact hj
              have hk1 : k < j := by
                have := get?_lt hk
                omega
              simp only [Runner.signaled, hph, hk1, decide_True] at this
              simp only [Runner.signaled, hrn1]
              exact this
            · exact inv.held a r k c hold hk
      · cases h

theorem notifyInv_step {s s1 : State} {l : Label} (tinv : TokenInv s) (sinv : SchedInv s)
    (inv : NotifyInv s) (h : step s l = some s1) : NotifyInv s1 := by
  cases l with
  | async u => exact notifyInv_async inv h
  | sync u => exact notifyInv_sync inv h
  | handlerRecv c => exact notifyInv_handlerRecv inv h
  | seed => exact notifyInv_seed sinv inv h
  | recvIncoming => exact notifyInv_recvIncoming inv h
  | deliver i => exact notifyInv_deliver tinv sinv inv h
  | timerFire j => exact notifyInv_timerFire inv h
  | report j => exact notifyInv_report inv h
  | takeToken => exact notifyInv_takeToken inv h
  | runner i => exact notifyInv_runnerStep inv h

theorem notifyInv_run {ls : List Label} {s s1 : State} (tinv : TokenInv s) (sinv : SchedInv s)
    (inv : NotifyInv s) (hl : ∀ l ∈ ls, l.delayOK = true)
    (h : run s ls = some s1) : NotifyInv s1 := by
  induction ls generalizing s with
  | nil =>
    simp only [run, Option.some.injEq] at h
    subst h
    exact inv
  | cons l ls ih =>
    simp only [run] at h
    split at h
    · cases h
    · rename_i s2 hs
      have hl0 := hl l (by simp)
      exact ih (tokenInv_step tinv hl0 hs) (schedInv_step sinv hs)
        (notifyInv_step tinv sinv inv hs) (fun l1 h1 => hl l1 (by simp [h1])) h

/-- What the send of a request on `queue` does. -/
theorem deliver_pending_spec {s s1 : State} {request : RunRequest} {i : Nat}
    (hpend : s.pc.pending = some request) (h : step s (.deliver i) = some s1) :
    ∃ rn rn1, s.runners.get? i = some rn ∧ rn.requests = s.queue ∧
      rn.recv request = some rn1 ∧ s1.runners = s.runners.set i rn1 := by
  simp only [step, deliver] at h
  split at h
  · cases h
  · rename_i rn hrn
    split at h
    · rename_i hreq
      split at h
      · rename_i r hpc
        rw [hpc] at hpend
        simp only [SPhase.pending, Option.some.injEq] at hpend
        subst hpend
        split at h
        · cases h
        · rename_i rn1 hrecv
          cases h
          exact ⟨rn, rn1, hrn, hreq, hrecv, rfl⟩
      · rename_i r hpc
        rw [hpc] at hpend
        simp only [SPhase.pending, Option.some.injEq] at hpend
        subst hpend
        split at h
        · cases h
        · rename_i rn1 hrecv
          cases h
          exact ⟨rn, rn1, hrn, hreq, hrecv, rfl⟩
      · rename_i hpc
        rw [hpc] at hpend
        simp [SPhase.pending] at hpend
      · cases h
    · cases h

/-- Notification, for delays of at least zero.  In every state reached by
steps whose submitted delays are at least zero: the channels made at line 55
are, in order of creation and each exactly once, the channels in the `waiters`
of the runners followed by those of the requests not yet delivered to a
runner; at most one value has been sent on each; the number of values sent on
the channel at `waiters[k]` of a runner is 1 when the runner has passed index
`k` in the loop of lines 92-94, which comes after its action, and 0 before,
and it is 0 for a request not yet delivered; and a request the scheduler sends
on `queue` is received by the runner of the active run number, which has not
been sent the close marker, stays at its receive and appends the `Notify`
channel of the request to its `waiters`. -/
theorem notify_exactly_once (ls : List Label) (s : State)
    (hl : ∀ l ∈ ls, l.delayOK = true) (h : run init ls = some s) :
    allWaiters s.runners ++ s.waitingChans = List.range s.notify.length ∧
    (∀ c v, s.sent.get? c = some v → v ≤ 1) ∧
    (∀ i r k c, s.runners.get? i = some r → r.waiters.get? k = some c →
      s.sent.get? c = some (if r.signaled k then 1 else 0)) ∧
    (∀ c, c ∈ s.waitingChans → s.sent.get? c = some 0) ∧
    (∀ request i s1, s.pc.pending = some request → step s (.deliver i) = some s1 →
      ∃ rn rn1, s.runners.get? i = some rn ∧ rn.runNum = s.runNum ∧
        closeMarker ∉ rn.received ∧ s1.runners = s.runners.set i rn1 ∧
        rn1.phase = .collecting ∧ rn1.received = rn.received ++ [request] ∧
        rn1.waiters = rn.waiters ++ request.Notify.toList) := by
  have tinv := tokenInv_run tokenInv_init hl h
  have sinv := schedInv_run schedInv_init h
  have inv := notifyInv_run tokenInv_init schedInv_init notifyInv_init hl h
  refine ⟨inv.chans, ?_, inv.held, inv.waiting, ?_⟩
  · intro c v hc
    have hlt : c < s.notify.length := by
      rw [← inv.len]
      exact get?_lt hc
    have hmem : c ∈ allWaiters s.runners ++ s.waitingChans := by
      rw [inv.chans]
      exact List.mem_range.mpr hlt
    rw [List.mem_append] at hmem
    rcases hmem with hm | hm
    · obtain ⟨i, r, k, hr, hk⟩ := mem_allWaiters.mp hm
      have := inv.held i r k c hr hk
      rw [this] at hc
      simp only [Option.some.injEq] at hc
      subst hc
      split <;> omega
    · have := inv.waiting c hm
      rw [this] at hc
      simp only [Option.some.injEq] at hc
      omega
  · intro request i s1 hpend hs
    obtain ⟨rn, rn1, hrn, hreq, hrecv, hs1⟩ := deliver_pending_spec hpend hs
    have hne : s.pc ≠ .init := by
      intro hc
      rw [hc] at hpend
      simp [SPhase.pending] at hpend
    have hd : 0 ≤ request.Delay := tinv.pending_nonneg request hpend
    obtain ⟨-, h2, h3, h4, -, -⟩ := Runner.recv_nonneg hrecv hd
    have hid := sinv.ids i rn hrn
    have hiq : i = s.queue := by rw [← hreq]; exact hid.1.symm
    refine ⟨rn, rn1, hrn, ?_, ?_, hs1, h2, h3, h4⟩
    · rw [hid.2, sinv.runNum hne, hiq]
    · intro hc
      have := ((sinv.marker i rn hrn).2).mp hc
      omega

theorem notify_exactly_once_witness :
    atNotified.sent = [1] ∧
    (allWaiters atNotified.runners ++ atNotified.waitingChans =
      List.range atNotified.notify.length ∧
    (∀ c v, atNotified.sent.get? c = some v → v ≤ 1) ∧
    (∀ i r k c, atNotified.runners.get? i = some r → r.waiters.get? k = some c →
      atNotified.sent.get? c = some (if r.signaled k then 1 else 0)) ∧
    (∀ c, c ∈ atNotified.waitingChans → atNotified.sent.get? c = some 0) ∧
    (∀ request i s1, atNotified.pc.pending = some request →
      step atNotified (.deliver i) = some s1 →
      ∃ rn rn1, atNotified.runners.get? i = some rn ∧ rn.runNum = atNotified.runNum ∧
        closeMarker ∉ rn.received ∧ s1.runners = atNotified.runners.set i rn1 ∧
        rn1.phase = .collecting ∧ rn1.received = rn.received ++ [request] ∧
        rn1.waiters = rn.waiters ++ request.Notify.toList)) :=
  ⟨by decide, notify_exactly_once runToNotified atNotified (by decide) (by decide)⟩

end Bpe
